import Mathlib

/-!
Shallow embedding of the learning-path post-processing and persistence layer
of `utils.py` (sanitize_learning_path_text, extract_days_and_questions,
load_progress / save_progress, load_history / save_history_record), together
with theorems settling the specification claims about them.

Strings are modelled as `List Char` (`String.data`); Python regular
expressions are translated into explicit character-list scanners that follow
the regex engine's leftmost, non-overlapping, backtracking semantics for the
concrete patterns used by the source.  Whitespace (`\s`, `str.strip`) is
modelled by Python's Unicode whitespace set, line splitting by
`str.splitlines`'s break set; `\d` and `re.IGNORECASE` are modelled on ASCII,
which covers every input class the claims quantify over.
-/

namespace LPG

/-- Python's whitespace set: the characters for which `str.isspace()` holds,
which is also the set matched by `\s` in `re` patterns over `str`. -/
def isPyWs (c : Char) : Bool :=
  let n := c.toNat
  (9 ≤ n && n ≤ 13) || (28 ≤ n && n ≤ 31) || n = 32 || n = 133 || n = 160 ||
  n = 5760 || (8192 ≤ n && n ≤ 8202) || n = 8232 || n = 8233 || n = 8239 ||
  n = 8287 || n = 12288

/-- The line-break set of Python's `str.splitlines`. -/
def isLineBreak (c : Char) : Bool :=
  let n := c.toNat
  n = 10 || n = 13 || n = 11 || n = 12 || n = 28 || n = 29 || n = 30 ||
  n = 133 || n = 8232 || n = 8233

/-- ASCII lower-casing, modelling `re.IGNORECASE` on the ASCII inputs used by
the source's patterns. -/
def lowerChar (c : Char) : Char :=
  if 65 ≤ c.toNat ∧ c.toNat ≤ 90 then Char.ofNat (c.toNat + 32) else c

/-- ASCII decimal digit (`\d` on the inputs of interest). -/
def isAsciiDigit (c : Char) : Bool := '0' ≤ c && c ≤ '9'

/-- `str.strip()` from the left. -/
def stripL (l : List Char) : List Char := l.dropWhile isPyWs

/-- `str.strip()` from the right. -/
def stripR (l : List Char) : List Char := ((l.reverse).dropWhile isPyWs).reverse

/-- Python `str.strip()`. -/
def pyStrip (l : List Char) : List Char := stripR (stripL l)

/-- `str.strip(chars)` for an explicit character set. -/
def stripSet (p : Char → Bool) (l : List Char) : List Char :=
  ((l.dropWhile p).reverse.dropWhile p).reverse

/-- Auxiliary state machine of `str.splitlines` (accumulates the current
line reversed; `\r\n` counts as a single break). -/
def pySplitAux : List Char → List Char → List (List Char)
  | [], acc => if acc.isEmpty then [] else [acc.reverse]
  | '\r' :: '\n' :: rest, acc => acc.reverse :: pySplitAux rest []
  | c :: rest, acc =>
      if isLineBreak c then acc.reverse :: pySplitAux rest []
      else pySplitAux rest (c :: acc)

/-- Python `str.splitlines()`. -/
def pySplitLines (l : List Char) : List (List Char) := pySplitAux l []

/-- The input remaining after `pySplitAux` consumes the break starting at
`c` (a `\r` also consumes an immediately following `\n`). -/
def pySplitTail (c : Char) (m : List Char) : List Char :=
  if c = '\r' ∧ m.head? = some '\n' then m.tail else m

/-- `"\n".join(lines)`. -/
def joinNl : List (List Char) → List Char
  | [] => []
  | [l] => l
  | l :: rest => l ++ '\n' :: joinNl rest

/-- Case-sensitive literal matcher: consumes `pat` from the front of `l`. -/
def litM : List Char → List Char → Option (List Char)
  | [], l => some l
  | _ :: _, [] => none
  | p :: ps, c :: cs => if c = p then litM ps cs else none

/-- Case-insensitive literal matcher (`pat` is given in lower case). -/
def litCI : List Char → List Char → Option (List Char)
  | [], l => some l
  | _ :: _, [] => none
  | p :: ps, c :: cs => if lowerChar c = p then litCI ps cs else none

/-- `\s+`: one or more whitespace characters, greedy. -/
def ws1 (l : List Char) : Option (List Char) :=
  match l with
  | [] => none
  | c :: _ => if isPyWs c then some (l.dropWhile isPyWs) else none

/-- `\d+`: one or more ASCII digits, greedy. -/
def digits1 (l : List Char) : Option (List Char) :=
  match l with
  | [] => none
  | c :: _ => if isAsciiDigit c then some (l.dropWhile isAsciiDigit) else none

/-- Does `pat` occur as a contiguous sublist of `l`?  (`pat in s` / a regex
literal occurring somewhere). -/
def containsSub (pat : List Char) : List Char → Bool
  | [] => pat.isEmpty
  | c :: cs => (litM pat (c :: cs)).isSome || containsSub pat cs

/-- Case-insensitive `containsSub` (`pat` given in lower case). -/
def containsSubCI (pat : List Char) : List Char → Bool
  | [] => pat.isEmpty
  | c :: cs => (litCI pat (c :: cs)).isSome || containsSubCI pat cs

/-!  ## Persistence layer (progress store, history log)

`load_progress`/`save_progress` key a per-goal JSON file by Python's built-in
`hash()` of the goal string; `load_history`/`save_history_record` share one
JSON file holding a list of records.  The file system is modelled as the
parsed contents of those files; `json.dump`/`json.load` of the plain
string/bool dictionaries used here round-trip, so a file stores the record
itself, and a missing or unparsable file is a distinguished state. -/

/-- One per-day entry of a progress record: `{completed, title, topic}`. -/
structure ProgEntry where
  completed : Bool
  title : String
  topic : String
deriving DecidableEq, Repr

/-- A progress record: mapping from day key to entry (association list). -/
def ProgressRecord := List (String × ProgEntry)
deriving DecidableEq

/-- The progress file system: association list from file name to the parsed
progress record stored in it. -/
def ProgFS := List (String × ProgressRecord)

/-- Modelled from the spec: CPython's built-in `hash()` on a string, which
the source uses as the file-name key.  The spec states such hashes "are
commonly randomized per process and are not guaranteed stable", so the hash
is modelled as a deterministic digest of the goal string salted with a
per-process seed. -/
def pyHash (seed : Nat) (g : String) : Nat :=
  g.data.foldl (fun a c => (a * 1000003 + c.toNat + 1) % 2 ^ 61) seed

/-- `progress_{hash(user_goal)}.json`. -/
def progressFileName (seed : Nat) (g : String) : String :=
  "progress_" ++ toString (pyHash seed g) ++ ".json"

/-- `load_progress(user_goal)`: read the goal's file in the current process
(`seed`); a missing (or unreadable) file yields the empty record. -/
def load_progress (seed : Nat) (fs : ProgFS) (g : String) : ProgressRecord :=
  (fs.lookup (progressFileName seed g)).getD []

/-- `save_progress(user_goal, progress)`: write the goal's file in the
current process (`seed`).  The write is fallible (`writeOk`); a failing
write raises inside the `try`, is swallowed by the bare `except: pass`, and
the function returns normally with the store unchanged. -/
def save_progress (writeOk : Bool) (seed : Nat) (fs : ProgFS) (g : String)
    (r : ProgressRecord) : ProgFS :=
  if writeOk then (progressFileName seed g, r) :: fs else fs

/-- One history record: `{timestamp, goal, tool, has_drive, has_notion, content}`. -/
structure HistoryRecord where
  timestamp : String
  goal : String
  tool : String
  has_drive : Bool
  has_notion : Bool
  content : String
deriving DecidableEq, Repr

/-- The state of the single history file. -/
inductive HFile where
  /-- no file on disk -/
  | missing
  /-- the file exists but is unreadable or not valid JSON -/
  | corrupt
  /-- the file holds a valid JSON list of records -/
  | valid (records : List HistoryRecord)
deriving DecidableEq, Repr

/-- `load_history()`: parse the file; absence or any read/parse failure is
swallowed and yields the empty list. -/
def load_history : HFile → List HistoryRecord
  | .valid rs => rs
  | _ => []

/-- `save_history_record(record)`: load the whole log, append, write the
whole log back.  The write is fallible (`writeOk`); it is not wrapped in any
`try`, so a failing write propagates to the caller (`Except.error`). -/
def save_history_record (writeOk : Bool) (f : HFile) (r : HistoryRecord) :
    Except Unit HFile :=
  if writeOk then .ok (.valid (load_history f ++ [r])) else .error ()

/-!  ## extract_days_and_questions

The primary stage canonicalizes day headers onto their own lines
(`re.sub(r"\s+(Day\s+\d+\s*[:\-])", "\n\1", text, IGNORECASE)`), splits at
newlines followed by a day header, and extracts fields per block; the
fallback stage (used only when the primary stage yields nothing) slices the
original text at the match positions of
`(?im)^\s*Day\s+\d+\s*[:\-]?.*$` and extracts the same fields per slice. -/

/-- Matcher for `Day\s+\d+\s*[:\-]` (IGNORECASE): returns the rest after the
separator.  Deterministic: each greedy sub-match is followed by a character
class disjoint from it, so the regex engine never backtracks here. -/
def dayHdrSepAfter (l : List Char) : Option (List Char) :=
  match litCI "day".data l with
  | none => none
  | some r1 =>
    match ws1 r1 with
    | none => none
    | some r2 =>
      match digits1 r2 with
      | none => none
      | some r3 =>
        match r3.dropWhile isPyWs with
        | ':' :: t => some t
        | '-' :: t => some t
        | _ => none

/-- One pass of `re.sub(r"\s+(Day\s+\d+\s*[:\-])", "\n\1", ·, IGNORECASE)`:
leftmost non-overlapping matches, each replaced by a newline plus the
captured header; scanning resumes after the match.  `\s+` is greedy and
`Day` starts with a non-whitespace character, so only the maximal
whitespace run can precede a match.  Fuel is the input length. -/
def canonScanF : Nat → List Char → List Char
  | 0, l => l
  | _ + 1, [] => []
  | fuel + 1, c :: cs =>
    if isPyWs c then
      let r := (c :: cs).dropWhile isPyWs
      match dayHdrSepAfter r with
      | some rest => '\n' :: (r.take (r.length - rest.length)) ++ canonScanF fuel rest
      | none => c :: canonScanF fuel cs
    else c :: canonScanF fuel cs

/-- The canonicalized text (`canon` in the source). -/
def canonOf (l : List Char) : List Char := canonScanF l.length l

/-- The lookahead of the block splitter: `(?=\s*Day\s+\d+\s*[:\-])`. -/
def splitLookahead (rest : List Char) : Bool :=
  (dayHdrSepAfter (rest.dropWhile isPyWs)).isSome

/-- `re.split(r"\n(?=\s*Day\s+\d+\s*[:\-])", canon, IGNORECASE)`: cut at each
newline whose lookahead matches; the newline is consumed by the split. -/
def splitCanonAux : List Char → List Char → List (List Char)
  | [], acc => [acc.reverse]
  | '\n' :: rest, acc =>
      if splitLookahead rest then acc.reverse :: splitCanonAux rest []
      else splitCanonAux rest ('\n' :: acc)
  | c :: rest, acc => splitCanonAux rest (c :: acc)

/-- The block list (`day_blocks` in the source). -/
def splitCanon (l : List Char) : List (List Char) := splitCanonAux l []

/-- `re.match(r"^(Day\s+\d+\s*[:\-]\s*)(.*)$", block, IGNORECASE)` on a
stripped block, yielding `(day_title, rest)`.  Without `re.MULTILINE`, `$`
only matches at the end of the (stripped, hence newline-free at the end)
block, and `.` cannot cross a newline, so the match succeeds exactly when no
newline remains after the header and its trailing whitespace; otherwise the
source falls back to `("Day", block)`. -/
def blockTitleRest (block : List Char) : List Char × List Char :=
  match dayHdrSepAfter block with
  | none => ("Day".data, block)
  | some r0 =>
    let t := r0.dropWhile isPyWs
    if t.all (· ≠ '\n') then
      (pyStrip (block.take (block.length - r0.length)), pyStrip t)
    else ("Day".data, block)

/-- One attempt of `Topic\s*:\s*([^\n]+)` (IGNORECASE) at the head of `l`,
returning the raw group.  When only whitespace follows the colon, the
engine backtracks the greedy `\s*` until `[^\n]+` can consume one
character: the rightmost non-newline character of the whitespace run. -/
def topicAt (l : List Char) : Option (List Char) :=
  match litCI "topic".data l with
  | none => none
  | some r1 =>
    match r1.dropWhile isPyWs with
    | ':' :: r3 =>
      let w := r3.takeWhile isPyWs
      let rest := r3.dropWhile isPyWs
      match rest with
      | [] =>
        (match w.reverse.dropWhile (· = '\n') with
         | [] => none
         | c :: _ => some [c])
      | _ :: _ => some (rest.takeWhile (· ≠ '\n'))
    | _ => none

/-- `re.search` for the topic pattern: first position whose attempt
succeeds. -/
def topicSearch : List Char → Option (List Char)
  | [] => none
  | c :: cs =>
    match topicAt (c :: cs) with
    | some g => some g
    | none => topicSearch cs

/-- The extracted `topic` field of a block body. -/
def topicOf (rest : List Char) : List Char :=
  match topicSearch rest with
  | some g => pyStrip g
  | none => []

/-- `https?://\S+` attempted at the head of `l` (case-sensitive form, used
by the bare-URL searches). -/
def urlAt (l : List Char) : Option (List Char) :=
  match litM "https://".data l with
  | some r =>
    (match r.takeWhile (fun c => !isPyWs c) with
     | [] => none
     | s => some ("https://".data ++ s))
  | none =>
    match litM "http://".data l with
    | some r =>
      (match r.takeWhile (fun c => !isPyWs c) with
       | [] => none
       | s => some ("http://".data ++ s))
    | none => none

/-- Case-insensitive `https?://\S+` attempt (inside the IGNORECASE label
pattern); the group keeps the original characters. -/
def urlAtCI (l : List Char) : Option (List Char) :=
  match litCI "https://".data l with
  | some r =>
    (match r.takeWhile (fun c => !isPyWs c) with
     | [] => none
     | s => some (l.take 8 ++ s))
  | none =>
    match litCI "http://".data l with
    | some r =>
      (match r.takeWhile (fun c => !isPyWs c) with
       | [] => none
       | s => some (l.take 7 ++ s))
    | none => none

/-- `re.search(r"https?://\S+", ·)`. -/
def urlSearch : List Char → Option (List Char)
  | [] => none
  | c :: cs =>
    match urlAt (c :: cs) with
    | some u => some u
    | none => urlSearch cs

/-- The `\s*:?\s*(https?://\S+)` tail of the label pattern: skip
whitespace, consume an optional colon, skip whitespace, match the URL. -/
def labelTail (r1 : List Char) : Option (List Char) :=
  match r1.dropWhile isPyWs with
  | ':' :: t => urlAtCI (t.dropWhile isPyWs)
  | r2 => urlAtCI (r2.dropWhile isPyWs)

/-- One attempt of `YouTube\s*Link(?:\s*\d+)?\s*:?\s*(https?://\S+)`
(IGNORECASE): the optional numbered group is tried first, with fallback to
the group-less alternative. -/
def labelAt (l : List Char) : Option (List Char) :=
  match litCI "youtube".data l with
  | none => none
  | some r0 =>
    match litCI "link".data (r0.dropWhile isPyWs) with
    | none => none
    | some r1 =>
      match digits1 (r1.dropWhile isPyWs) with
      | some r2 =>
        (match labelTail r2 with
         | some u => some u
         | none => labelTail r1)
      | none => labelTail r1

/-- `re.search` for the labelled-link pattern. -/
def labelSearch : List Char → Option (List Char)
  | [] => none
  | c :: cs =>
    match labelAt (c :: cs) with
    | some u => some u
    | none => labelSearch cs

/-- The link the source picks before any fixing: the labelled link
(stripped) if present, else the first bare URL, else empty. -/
def chosenLink (rest : List Char) : List Char :=
  match labelSearch rest with
  | some u => pyStrip u
  | none =>
    match urlSearch rest with
    | some u => u
    | none => []

/-- One attempt of `Practice\s*Questions\s*\(\s*10\s*\)\s*:?\s*(.*)$`
(IGNORECASE | DOTALL): with DOTALL the group is everything to the end. -/
def qSecAt (l : List Char) : Option (List Char) :=
  match litCI "practice".data l with
  | none => none
  | some r1 =>
    match litCI "questions".data (r1.dropWhile isPyWs) with
    | none => none
    | some r2 =>
      match r2.dropWhile isPyWs with
      | '(' :: r3 =>
        (match litM "10".data (r3.dropWhile isPyWs) with
         | some r4 =>
           (match r4.dropWhile isPyWs with
            | ')' :: r5 =>
              let r6 := r5.dropWhile isPyWs
              let r7 := match r6 with | ':' :: t => t | _ => r6
              some (r7.dropWhile isPyWs)
            | _ => none)
         | none => none)
      | _ => none

/-- `re.search` for the practice-questions section. -/
def qSecSearch : List Char → Option (List Char)
  | [] => none
  | c :: cs =>
    match qSecAt (c :: cs) with
    | some g => some g
    | none => qSecSearch cs

/-- The characters stripped from question lines: `strip(" -\t")`. -/
def isDashSpTab (c : Char) : Bool := c = ' ' || c = '-' || c = '\t'

/-- `re.sub(r"^\d+\.?\s*", "", line)`: at most one leading list marker is
removed (the pattern is anchored). -/
def stripNumMark (l : List Char) : List Char :=
  match l with
  | [] => []
  | c :: _ =>
    if isAsciiDigit c then
      let r := l.dropWhile isAsciiDigit
      let r2 := match r with | '.' :: t => t | _ => r
      r2.dropWhile isPyWs
    else l

/-- The per-line question cleanup loop of the source: split into lines,
strip markers, keep non-empty results. -/
def qLinesOf (qtext : List Char) : List (List Char) :=
  (pySplitLines qtext).filterMap fun ln =>
    let l1 := stripNumMark (stripSet isDashSpTab ln)
    if l1.isEmpty then none else some l1

/-- The question list of a primary block body (before the `[:10]` cap). -/
def questionsOf (rest : List Char) : List (List Char) :=
  qLinesOf (match qSecSearch rest with | some g => pyStrip g | none => [])

/-- Uppercase hexadecimal digit. -/
def hexDigit (n : Nat) : Char :=
  if n < 10 then Char.ofNat (48 + n) else Char.ofNat (55 + n)

/-- Characters `urllib.parse.quote_plus` leaves unescaped. -/
def isQuoteSafe (c : Char) : Bool :=
  ('A' ≤ c && c ≤ 'Z') || ('a' ≤ c && c ≤ 'z') || isAsciiDigit c ||
  c = '_' || c = '.' || c = '-' || c = '~'

/-- `urllib.parse.quote_plus`: spaces become `+`, unsafe characters become
percent-encoded UTF-8 bytes. -/
def quotePlus (l : List Char) : List Char :=
  l.flatMap fun c =>
    if c = ' ' then ['+']
    else if isQuoteSafe c then [c]
    else (String.utf8EncodeChar c).flatMap fun b =>
      ['%', hexDigit (b.toNat / 16), hexDigit (b.toNat % 16)]

/-- The synthesized search link for a topic. -/
def searchUrlFor (topic : List Char) : List Char :=
  "https://www.youtube.com/results?search_query=".data ++
    quotePlus (topic ++ " tutorial".data)

/-- The fixed generic platform URL. -/
def genericUrl : List Char := "https://www.youtube.com/".data

/-- The unresolved-video-id sentinel token. -/
def sentinel : List Char := "VIDEO_ID_HERE".data

/-- The link both fallbacks synthesize: topic search if a topic exists,
else the generic URL. -/
def synthLink (topic : List Char) : List Char :=
  if topic.isEmpty then genericUrl else searchUrlFor topic

/-- The source's first link fix: a sentinel-bearing link is replaced by a
synthesized one. -/
def fixSentinelLink (topic v0 : List Char) : List Char :=
  if containsSub sentinel v0 then synthLink topic else v0

/-- The source's second link fix: an empty link is replaced by a
synthesized one (`if not video_link and topic: … elif not video_link: …`). -/
def fixEmptyLink (topic v1 : List Char) : List Char :=
  if v1.isEmpty then synthLink topic else v1

/-- The composition of the two link-fixing steps. -/
def resolveLink (topic v0 : List Char) : List Char :=
  fixEmptyLink topic (fixSentinelLink topic v0)

/-- A parsed per-day item (`{"day_title", "topic", "video_link", "questions"}`). -/
structure DayPlanItem where
  day_title : List Char
  topic : List Char
  video_link : List Char
  questions : List (List Char)
deriving DecidableEq, Repr

/-- The primary loop body for one block (`continue` on guard failure). -/
def primaryItem (block0 : List Char) : Option DayPlanItem :=
  let block := pyStrip block0
  if block.isEmpty then none
  else if (dayHdrSepAfter block).isNone then none
  else
    let tr := blockTitleRest block
    let topic := topicOf tr.2
    some ⟨tr.1, topic, resolveLink topic (chosenLink tr.2), (questionsOf tr.2).take 10⟩

/-- The primary stage (`results` in the source). -/
def primaryItems (text : List Char) : List DayPlanItem :=
  (splitCanon (canonOf text)).filterMap primaryItem

/-- One attempt of the fallback header `\s*Day\s+\d+\s*[:\-]?.*$` at a
`^` position (MULTILINE): returns the match length.  The greedy `\s*` may
cross newlines; `[:\-]?` is optional; `.*$` always reaches the end of a
line, so the attempt succeeds exactly when `Day\s+\d+` is reached. -/
def fbTryAt (l : List Char) : Option Nat :=
  match litCI "day".data (l.dropWhile isPyWs) with
  | none => none
  | some q1 =>
    match ws1 q1 with
    | none => none
    | some q2 =>
      match digits1 q2 with
      | none => none
      | some r =>
        let r1 := r.dropWhile isPyWs
        let r2 := match r1 with | ':' :: t => t | '-' :: t => t | _ => r1
        let r3 := r2.dropWhile (· ≠ '\n')
        some (l.length - r3.length)

/-- `finditer` for the fallback header: leftmost non-overlapping matches at
`^` positions (offset 0 or just after a newline), collecting start
offsets.  Fuel is the input length. -/
def fbScanF : Nat → List Char → Nat → Bool → List Nat
  | 0, _, _, _ => []
  | _ + 1, [], _, _ => []
  | fuel + 1, c :: cs, pos, atStart =>
    if atStart then
      match fbTryAt (c :: cs) with
      | some n => pos :: fbScanF fuel ((c :: cs).drop n) (pos + n) false
      | none => fbScanF fuel cs (pos + 1) (c = '\n')
    else fbScanF fuel cs (pos + 1) (c = '\n')

/-- The fallback header match start offsets in `text`. -/
def fbStarts (l : List Char) : List Nat := fbScanF l.length l 0 true

/-- Slice `text` from each match start to the next match start (or the
end). -/
def fbSlices (l : List Char) : List Nat → List (List Char)
  | [] => []
  | [s] => [l.drop s]
  | s :: s' :: rest => ((l.drop s).take (s' - s)) :: fbSlices l (s' :: rest)

/-- The fallback block list. -/
def fbBlocks (l : List Char) : List (List Char) := fbSlices l (fbStarts l)

/-- `header_line.split("Topic:")[0]`: the part before the first
(case-sensitive) occurrence, or the whole line. -/
def splitBeforeLit (pat : List Char) : List Char → List Char
  | [] => []
  | c :: cs =>
    if (litM pat (c :: cs)).isSome then []
    else c :: splitBeforeLit pat cs

/-- The link the fallback loop picks before any fixing: the first bare URL
in the block, else empty. -/
def fbChosenLink (block : List Char) : List Char :=
  match urlSearch block with
  | some u => u
  | none => []

/-- The fallback loop body for one block (every block yields an item). -/
def fallbackItem (block0 : List Char) : DayPlanItem :=
  let block := pyStrip block0
  let header_line := match pySplitLines block with | [] => "Day".data | h :: _ => h
  let dt0 := pyStrip (splitBeforeLit "Topic:".data header_line)
  let day_title := if dt0.isEmpty then "Day".data else dt0
  let topic := topicOf block
  let qtext := match qSecSearch block with | some g => g | none => []
  ⟨day_title, topic, resolveLink topic (fbChosenLink block), (qLinesOf qtext).take 10⟩

/-- The fallback stage. -/
def fallbackItems (text : List Char) : List DayPlanItem :=
  (fbBlocks text).map fallbackItem

/-- `extract_days_and_questions`: primary stage, falling back to the
positional stage when the primary stage yields no block. -/
def extractL (text : List Char) : List DayPlanItem :=
  if text.isEmpty then []
  else
    let primary := primaryItems text
    if primary.isEmpty then fallbackItems text else primary

/-- String-level entry point of `extract_days_and_questions`. -/
def extract_days_and_questions (s : String) : List DayPlanItem := extractL s.data

/-!  ## sanitize_learning_path_text

Three global substitutions (code fences, ToolException error spans,
`"data"` JSON spans), then a line filter (trace lines and bare JSON-object
lines dropped, blank lines normalized to empty), then a trim to the first
day header keeping at most two preceding title lines. -/

/-- Lazy `[\s\S]*?` up to and including the next ```` ``` ````: rest after
the closing fence. -/
def fenceCloseAfter : List Char → Option (List Char)
  | [] => none
  | c :: cs =>
    match litM "```".data (c :: cs) with
    | some r => some r
    | none => fenceCloseAfter cs

/-- One attempt of ```` ```[\s\S]*?``` ```` at the head of `l`. -/
def fenceTry (l : List Char) : Option (List Char) :=
  match litM "```".data l with
  | none => none
  | some r => fenceCloseAfter r

/-- `re.sub(r"```[\s\S]*?```", "", ·)`: leftmost non-overlapping removal,
resuming after each match.  Fuel is the input length. -/
def fenceScanF : Nat → List Char → List Char
  | 0, l => l
  | _ + 1, [] => []
  | fuel + 1, c :: cs =>
    match fenceTry (c :: cs) with
    | some rest => fenceScanF fuel rest
    | none => c :: fenceScanF fuel cs

/-- The fence-removal pass. -/
def fenceRm (l : List Char) : List Char := fenceScanF l.length l

/-- Lazy `[\s\S]*?` up to and including the next `)`. -/
def closeParenAfter : List Char → Option (List Char)
  | [] => none
  | ')' :: cs => some cs
  | _ :: cs => closeParenAfter cs

/-- One attempt of `Error:\s*ToolException\([\s\S]*?\)\s*` (IGNORECASE) at
the head of `l` (the trailing `\s*` is greedy). -/
def teTry (l : List Char) : Option (List Char) :=
  match litCI "error:".data l with
  | none => none
  | some r1 =>
    match litCI "toolexception(".data (r1.dropWhile isPyWs) with
    | none => none
    | some r2 =>
      match closeParenAfter r2 with
      | none => none
      | some r => some (r.dropWhile isPyWs)

/-- `re.sub` for the ToolException pattern. -/
def teScanF : Nat → List Char → List Char
  | 0, l => l
  | _ + 1, [] => []
  | fuel + 1, c :: cs =>
    match teTry (c :: cs) with
    | some rest => teScanF fuel rest
    | none => c :: teScanF fuel cs

/-- The ToolException-removal pass. -/
def teRm (l : List Char) : List Char := teScanF l.length l

/-- Lazy `[\s\S]*?` up to `\}\s*\}`: at each `}` the engine checks whether
only whitespace separates it from another `}` (the greedy inner `\s*` can
only backtrack onto whitespace, never onto `}`); on success the rest after
the second `}` is returned. -/
def djCloseAfter : List Char → Option (List Char)
  | [] => none
  | '}' :: cs =>
    (match cs.dropWhile isPyWs with
     | '}' :: t => some t
     | _ => djCloseAfter cs)
  | _ :: cs => djCloseAfter cs

/-- One attempt of `\{\s*"data"\s*:\s*\{[\s\S]*?\}\s*\}\s*` (case-sensitive)
at the head of `l`. -/
def djTry (l : List Char) : Option (List Char) :=
  match l with
  | '{' :: r0 =>
    (match litM "\"data\"".data (r0.dropWhile isPyWs) with
     | none => none
     | some r1 =>
       match r1.dropWhile isPyWs with
       | ':' :: r2 =>
         (match r2.dropWhile isPyWs with
          | '{' :: r3 =>
            (match djCloseAfter r3 with
             | none => none
             | some r => some (r.dropWhile isPyWs))
          | _ => none)
       | _ => none)
  | _ => none

/-- `re.sub` for the data-JSON pattern. -/
def djScanF : Nat → List Char → List Char
  | 0, l => l
  | _ + 1, [] => []
  | fuel + 1, c :: cs =>
    match djTry (c :: cs) with
    | some rest => djScanF fuel rest
    | none => c :: djScanF fuel cs

/-- The data-JSON-removal pass. -/
def djRm (l : List Char) : List Char := djScanF l.length l

/-- Does `l` start (case-insensitively) with `pat`? -/
def startsWithCI (pat l : List Char) : Bool := (litCI pat l).isSome

/-- `re.match(r"^(Thought|Action|Observation)\s*:?", s, IGNORECASE)` on a
stripped line: since `\s*:?` can be empty, this is a bare prefix test. -/
def traceLineB (s : List Char) : Bool :=
  startsWithCI "thought".data s || startsWithCI "action".data s ||
  startsWithCI "observation".data s

/-- `s.startswith("{") and s.endswith("}")` on a stripped line. -/
def bareJsonB (s : List Char) : Bool :=
  match s with
  | '{' :: _ => (match s.getLast? with | some '}' => true | _ => false)
  | _ => false

/-- The line filter: blank lines become empty, trace lines and bare
JSON-object lines are dropped, other lines are kept verbatim. -/
def keepOrNorm (ln : List Char) : Option (List Char) :=
  let s := pyStrip ln
  if s.isEmpty then some []
  else if traceLineB s then none
  else if bareJsonB s then none
  else some ln

/-- The filtered line list (`lines` in the source). -/
def filteredLines (t : List Char) : List (List Char) :=
  (pySplitLines t).filterMap keepOrNorm

/-- `cleaned = "\n".join(lines).strip()`. -/
def cleanedOf (t : List Char) : List Char := pyStrip (joinNl (filteredLines t))

/-- Does the line carry a day header at its first non-whitespace position?
`re.search(r"(^|\n)\s*Day\s+\d+\s*[:\-]", cleaned, IGNORECASE)` matches
exactly when some line does: from a `^`/newline anchor, `\s*` can only skip
whitespace (including blank lines), so `Day` must sit at the first
non-whitespace position of a later line. -/
def isDayLine (l : List Char) : Bool := (dayHdrSepAfter (l.dropWhile isPyWs)).isSome

/-- The day-trim step on the (stripped) `cleaned` text, rendered line-wise.
With `cleaned` stripped its first line is non-blank, so the leftmost match
of the day-header search starts at offset 0 exactly when the first line is
a day line (`k = 0`, where the source then returns `body = cleaned`), and
otherwise starts at the newline following the last non-blank line before
line `k`; stripping `cleaned[:start]` and `cleaned[start:]` absorbs the
intervening blank lines, which the `pyStrip ∘ joinNl` forms below
reproduce. -/
def dayTrim (cleaned : List Char) : List Char :=
  let ls := pySplitLines cleaned
  let pre := ls.takeWhile (fun l => !isDayLine l)
  let post := ls.dropWhile (fun l => !isDayLine l)
  if post.isEmpty then cleaned
  else if pre.isEmpty then cleaned
  else
    let headStr := pyStrip (joinNl pre)
    let headLs := pySplitLines headStr
    let title := joinNl (headLs.drop (headLs.length - 2))
    let body := pyStrip (joinNl post)
    if title.isEmpty then body else pyStrip (title ++ '\n' :: '\n' :: body)

/-- `sanitize_learning_path_text` on character lists. -/
def sanitizeL (t : List Char) : List Char :=
  if t.isEmpty then []
  else dayTrim (cleanedOf (djRm (teRm (fenceRm t))))

/-- String-level entry point of `sanitize_learning_path_text`. -/
def sanitize_learning_path_text (s : String) : String := String.mk (sanitizeL s.data)

/-!  ## Predicates used by the claims -/

/-- Does the day-header pattern `Day\s+\d+\s*[:\-]` occur anywhere in `l`? -/
def dayHdrOccurs : List Char → Bool
  | [] => false
  | c :: cs => (dayHdrSepAfter (c :: cs)).isSome || dayHdrOccurs cs

/-- Does an `http(s)://` URL (in any casing, i.e. a match of the
case-insensitive URL pattern) occur anywhere in `l`? -/
def urlAnyCI : List Char → Bool
  | [] => false
  | c :: cs => (urlAtCI (c :: cs)).isSome || urlAnyCI cs

/-- A line whose characters are all whitespace (one that strips to empty). -/
def isBlankL (l : List Char) : Bool := l.all isPyWs

/-- Drop blank lines from both ends of a line list. -/
def trimBlanksL (ls : List (List Char)) : List (List Char) :=
  ((ls.dropWhile isBlankL).reverse.dropWhile isBlankL).reverse

/-- "Beginning at or at most two title lines before the first day header if
one exists": the blank-trimmed prefix of lines before the first day-header
line has at most two lines. -/
def titleCountOK (x : List Char) : Bool :=
  match List.findIdx? isDayLine (pySplitLines x) with
  | none => true
  | some k => (trimBlanksL ((pySplitLines x).take k)).length ≤ 2

/-- The Sanitizer's output invariant as the idempotence claim states it:
no trace-marker lines, no code fences, no bare JSON-object lines, and at
most two title lines before the first day header. -/
def claimInvariant (x : List Char) : Bool :=
  (pySplitLines x).all (fun l => !traceLineB (pyStrip l) && !bareJsonB (pyStrip l)) &&
  !containsSub "```".data x && titleCountOK x

/-- The amended invariant: additionally no occurrence of the ToolException
error-trace marker and no occurrence of the quoted `"data"` key token (the
two sub-patterns whose removal can splice a new removable span out of
fragments, as the counterexample shows). -/
def sanitizeInvariant (x : List Char) : Bool :=
  claimInvariant x && !containsSubCI "toolexception".data x &&
  !containsSub "\"data\"".data x

/-- Apply `f` to the head of a line list, if any. -/
def updateHeadL (f : List Char → List Char) : List (List Char) → List (List Char)
  | [] => []
  | h :: t => f h :: t

/-- Apply `f` to the last element of a line list, if any. -/
def updateLastL (f : List Char → List Char) (ls : List (List Char)) :
    List (List Char) :=
  (updateHeadL f ls.reverse).reverse

/-- Drop blank lines from the end of a line list. -/
def dropTrailBlanksL (ls : List (List Char)) : List (List Char) :=
  (ls.reverse.dropWhile isBlankL).reverse

/-- The line-level effect of stripping a `"\n"`-join: drop blank lines from
the front, left-strip the new first line, drop blank lines from the end,
right-strip the new last line. -/
def edgeTrimL (ls : List (List Char)) : List (List Char) :=
  updateLastL stripR (dropTrailBlanksL (updateHeadL stripL (ls.dropWhile isBlankL)))

/-- No line-break characters (a line as produced by `str.splitlines`). -/
def breakFree (l : List Char) : Bool := l.all (fun c => !isLineBreak c)

/-- Canonical form of the text between the sanitizer's passes: every line is
kept verbatim by the line filter (blanks are already empty, no trace or
bare-JSON lines) and is break-free, the lines joined by `"\n"` reproduce the
text, and the text is stripped. -/
def CanonB (z : List Char) : Prop :=
  (∀ l ∈ pySplitLines z, keepOrNorm l = some l ∧ breakFree l = true) ∧
  joinNl (pySplitLines z) = z ∧ pyStrip z = z

/-!  ## Claim C1, C5, C9, C10 (persistence layer) -/

/-- C1: the claim asserts that `save_progress(g, r); load_progress(g)`
returns `r` even when the load runs in a different process.  The code keys
the file by the per-process-salted built-in `hash(g)`: in the saving
process (seed 0) the round-trip succeeds, but a load in a fresh process
(seed 1) reads a differently named file and returns the empty record,
losing `r`. -/
theorem claim_C1_progress_key_unstable_across_processes :
    load_progress 0 (save_progress true 0 [] "learn python"
        [("day_1", ⟨true, "Day 1", "X"⟩)]) "learn python"
      = [("day_1", ⟨true, "Day 1", "X"⟩)] ∧
    load_progress 1 (save_progress true 0 [] "learn python"
        [("day_1", ⟨true, "Day 1", "X"⟩)]) "learn python"
      = [] := by
  constructor
  · decide
  · decide

/-- C5: when the underlying file write fails, `save_progress` swallows the
failure (its bare `except: pass`) and returns normally with the store
unchanged, while `save_history_record` has no handler and propagates the
failure to the caller. -/
theorem claim_C5_write_failure_asymmetry (seed : Nat) (fs : ProgFS) (g : String)
    (r : ProgressRecord) (f : HFile) (hr : HistoryRecord) :
    save_progress false seed fs g r = fs ∧
    save_history_record false f hr = .error () :=
  ⟨rfl, rfl⟩

/-- C9: after `save_history_record(a)` then `save_history_record(b)` (with
successful writes), `load_history()` returns the previously loaded records
followed by `a` then `b`, in that order. -/
theorem claim_C9_history_append_order (f : HFile) (a b : HistoryRecord) :
    ∃ f1 f2 : HFile,
      save_history_record true f a = .ok f1 ∧
      save_history_record true f1 b = .ok f2 ∧
      load_history f2 = load_history f ++ [a, b] := by
  refine ⟨_, _, rfl, rfl, ?_⟩
  simp [load_history]

/-- C10: if the history file exists but is unreadable or not valid JSON,
`load_history` returns `[]`, so `save_history_record(r)` silently replaces
the whole file with the one-element list `[r]` — the write reports success
(`.ok`), and every previously persisted record is lost. -/
theorem claim_C10_corrupt_history_silently_replaced (r : HistoryRecord) :
    load_history .corrupt = [] ∧
    save_history_record true .corrupt r = .ok (.valid [r]) ∧
    load_history (.valid [r]) = [r] :=
  ⟨rfl, rfl, rfl⟩

/-!  ## Claim C3 (extraction of the canonical example) -/

/-- C3: on the spec's example text the extractor returns exactly one item
with `topic = "X"` and `questions = ["Q1", "Q2"]`, but its `day_title` is
the generic `"Day"` — not a string containing `"Day 1"` as the claim
asserts: the title pattern `^(Day\s+\d+\s*[:\-]\s*)(.*)$` is compiled
without `re.MULTILINE`, so its `$` cannot match before the interior newline
of any multi-line block and the title match always fails there. -/
theorem claim_C3_extraction_default_title :
    extract_days_and_questions
        "Day 1: Intro\nTopic: X\nPractice Questions (10)\n1. Q1\n2. Q2" =
      [⟨"Day".data, "X".data,
        "https://www.youtube.com/results?search_query=X+tutorial".data,
        ["Q1".data, "Q2".data]⟩] ∧
    containsSub "Day 1".data "Day".data = false := by
  constructor
  · decide
  · decide

/-!  ## Claim C2 (fallback activation) -/

/-- Slicing a non-empty start list yields a non-empty block list. -/
theorem fbSlices_ne_nil (l : List Char) (st : List Nat) (h : st ≠ []) :
    fbSlices l st ≠ [] := by
  cases st with
  | nil => exact absurd rfl h
  | cons s t => cases t <;> simp [fbSlices]

/-- C2 counterexample: in `"xDay 1: Intro"` the day-header pattern occurs
(at offset 1), the primary stage yields zero blocks, yet the extractor
returns no item at all: the fallback header is line-anchored
(`(?im)^\s*Day…`), so a header preceded by a non-whitespace character on
the same line is invisible to both stages. -/
theorem claim_C2_counterexample :
    dayHdrOccurs "xDay 1: Intro".data = true ∧
    primaryItems "xDay 1: Intro".data = [] ∧
    extract_days_and_questions "xDay 1: Intro" = [] := by
  refine ⟨by decide, by decide, by decide⟩

/-- C2 (amended): if the primary stage yields zero blocks and the fallback
header pattern matches somewhere — i.e. a day header (separator optional)
sits at the start of a line, possibly indented — then the extractor
returns at least one `DayPlanItem`. -/
theorem claim_C2_amended_fallback_recovers (s : String)
    (h1 : primaryItems s.data = []) (h2 : fbStarts s.data ≠ []) :
    extract_days_and_questions s ≠ [] := by
  have h3 := fbSlices_ne_nil s.data (fbStarts s.data) h2
  intro hnil
  rw [extract_days_and_questions, extractL] at hnil
  cases hE : s.data.isEmpty with
  | true =>
    exact h2 (by rw [List.isEmpty_iff.mp hE]; rfl)
  | false =>
    rw [hE] at hnil
    simp only [Bool.false_eq_true, if_false, h1, List.isEmpty_nil, if_true] at hnil
    exact h3 (by simpa [fallbackItems, fbBlocks] using hnil)

/-- C2 witness: `"Day 1 Intro"` has no separator, so the primary splitter
finds nothing, but the fallback recovers an item. -/
theorem claim_C2_amended_witness :
    extract_days_and_questions "Day 1 Intro" ≠ [] :=
  claim_C2_amended_fallback_recovers "Day 1 Intro" (by decide) (by decide)

/-!  ## Shared lemmas about the matcher combinators -/

/-- A successful case-sensitive literal match decomposes the input. -/
theorem litM_decomp {p l r : List Char} (h : litM p l = some r) : l = p ++ r := by
  induction p generalizing l with
  | nil =>
    simp only [litM, Option.some.injEq] at h
    simp [← h]
  | cons x xs ih =>
    cases l with
    | nil => exact absurd h (by simp [litM])
    | cons c cs =>
      simp only [litM] at h
      split at h
      · next he => simp [he, ih h]
      · cases h

/-- A successful case-insensitive literal match decomposes the input into a
consumed part that lower-cases to the pattern. -/
theorem litCI_decomp {p l r : List Char} (h : litCI p l = some r) :
    ∃ w, l = w ++ r ∧ w.map lowerChar = p := by
  induction p generalizing l with
  | nil =>
    simp only [litCI, Option.some.injEq] at h
    exact ⟨[], by simp [← h], rfl⟩
  | cons x xs ih =>
    cases l with
    | nil => exact absurd h (by simp [litCI])
    | cons c cs =>
      simp only [litCI] at h
      split at h
      · next he =>
        obtain ⟨w, hw1, hw2⟩ := ih h
        exact ⟨c :: w, by simp [hw1], by simp [hw2, he]⟩
      · cases h

/-- Extending the input extends a successful case-insensitive match. -/
theorem litCI_append {p l r z : List Char} (h : litCI p l = some r) :
    litCI p (l ++ z) = some (r ++ z) := by
  induction p generalizing l with
  | nil =>
    simp only [litCI, Option.some.injEq] at h
    simp [litCI, h]
  | cons x xs ih =>
    cases l with
    | nil => exact absurd h (by simp [litCI])
    | cons c cs =>
      simp only [litCI] at h
      split at h
      · next he => simpa [litCI, he] using ih h
      · cases h

/-- A suffix of the input, as produced by `litCI`. -/
theorem litCI_suffix {p l r : List Char} (h : litCI p l = some r) : r <:+ l := by
  obtain ⟨w, hw, -⟩ := litCI_decomp h
  exact ⟨w, hw.symm⟩

/-- A suffix of the input, as produced by `ws1`. -/
theorem ws1_suffix {l r : List Char} (h : ws1 l = some r) : r <:+ l := by
  unfold ws1 at h
  cases l with
  | nil => cases h
  | cons c cs =>
    by_cases hw : isPyWs c
    · simp only [hw, if_true, Option.some.injEq] at h
      exact h ▸ List.dropWhile_suffix isPyWs
    · simp [hw] at h

/-- A suffix of the input, as produced by `digits1`. -/
theorem digits1_suffix {l r : List Char} (h : digits1 l = some r) : r <:+ l := by
  unfold digits1 at h
  cases l with
  | nil => cases h
  | cons c cs =>
    by_cases hw : isAsciiDigit c
    · simp only [hw, if_true, Option.some.injEq] at h
      exact h ▸ List.dropWhile_suffix isAsciiDigit
    · simp [hw] at h

/-- Appending on the right preserves being a suffix. -/
theorem suffix_append_right {a b t : List Char} (h : a <:+ b) :
    a ++ t <:+ b ++ t := by
  obtain ⟨s, hs⟩ := h
  exact ⟨s, by rw [← hs, List.append_assoc]⟩

/-- `pyStrip` yields an infix. -/
theorem pyStrip_isInfix (l : List Char) : pyStrip l <:+: l := by
  have h1 : stripL l <:+ l := List.dropWhile_suffix isPyWs
  have h2 : stripR (stripL l) <+: stripL l := by
    rw [stripR]
    refine List.reverse_suffix.mp ?_
    simpa using List.dropWhile_suffix (l := (stripL l).reverse) isPyWs
  exact h2.isInfix.trans h1.isInfix

/-- The day-header matcher consumes from the front: its result is a suffix. -/
theorem dayHdrSepAfter_suffix {l r : List Char} (h : dayHdrSepAfter l = some r) :
    r <:+ l := by
  unfold dayHdrSepAfter at h
  split at h
  · cases h
  next r1 h1 =>
  split at h
  · cases h
  next r2 h2 =>
  split at h
  · cases h
  next r3 h3 =>
  have h4 : r3.dropWhile isPyWs <:+ r3 := List.dropWhile_suffix isPyWs
  have base : r <:+ r3.dropWhile isPyWs := by
    split at h
    · next heq => cases h; exact heq ▸ List.suffix_cons ':' _
    · next heq => cases h; exact heq ▸ List.suffix_cons '-' _
    · cases h
  exact (((base.trans h4).trans (digits1_suffix h3)).trans
    (ws1_suffix h2)).trans (litCI_suffix h1)

/-- The body part produced by `blockTitleRest` is an infix of the block. -/
theorem blockTitleRest_rest_isInfix (block : List Char) :
    (blockTitleRest block).2 <:+: block := by
  rw [blockTitleRest]
  cases h : dayHdrSepAfter block with
  | none => exact List.infix_refl block
  | some r0 =>
    simp only
    split
    · have h1 : r0.dropWhile isPyWs <:+ r0 := List.dropWhile_suffix isPyWs
      exact (pyStrip_isInfix _).trans ((h1.trans (dayHdrSepAfter_suffix h)).isInfix)
    · exact List.infix_refl block

/-!  ## URL-occurrence lemmas -/

/-- A case-sensitive match of a pattern that is stable under lower-casing is
also a case-insensitive match. -/
theorem litM_to_litCI {p l r : List Char} (hp : p.map lowerChar = p)
    (h : litM p l = some r) : litCI p l = some r := by
  induction p generalizing l with
  | nil => cases l <;> simpa [litM, litCI] using h
  | cons x xs ih =>
    cases l with
    | nil => exact absurd h (by simp [litM])
    | cons c cs =>
      simp only [List.map_cons, List.cons.injEq] at hp
      simp only [litM] at h
      split at h
      · next he =>
        have : lowerChar c = x := by rw [he, hp.1]
        simpa [litCI, this] using ih hp.2 h
      · cases h

/-- A nonempty `takeWhile` survives appending on the right. -/
theorem takeWhile_ne_nil_append {q : Char → Bool} {r : List Char}
    (z : List Char) (h : r.takeWhile q ≠ []) : (r ++ z).takeWhile q ≠ [] := by
  cases r with
  | nil => simp at h
  | cons c cs =>
    by_cases hq : q c
    · simp [List.takeWhile_cons, hq]
    · simp [List.takeWhile_cons, hq] at h

/-- `https://` cannot match case-insensitively where `http://` already
does: the two literal prefixes disagree. -/
theorem litCI_https_of_http {w t : List Char}
    (hw : w.map lowerChar = "http://".data) :
    litCI "https://".data (w ++ t) = none := by
  cases hs : litCI "https://".data (w ++ t) with
  | none => rfl
  | some r =>
    exfalso
    obtain ⟨w', hw1, hw2⟩ := litCI_decomp hs
    have hpre' : w' <+: w ++ t := ⟨r, hw1.symm⟩
    have hprew : w <+: w ++ t := ⟨t, rfl⟩
    have hlen : w.length = 7 := by
      have := congrArg List.length hw
      simpa using this
    have hlen' : w'.length = 8 := by
      have := congrArg List.length hw2
      simpa using this
    have hc : w <+: w' :=
      List.prefix_of_prefix_length_le hprew hpre' (by omega)
    have hmap : "http://".data <+: "https://".data := by
      rw [← hw, ← hw2]
      exact hc.map lowerChar
    exact absurd hmap (by decide)

/-- An attempted case-insensitive URL match survives appending. -/
theorem urlAtCI_mono {l z : List Char} (h : (urlAtCI l).isSome) :
    (urlAtCI (l ++ z)).isSome := by
  unfold urlAtCI at h ⊢
  cases h1 : litCI "https://".data l with
  | some r =>
    simp only [h1] at h
    simp only [litCI_append h1]
    cases ht : r.takeWhile (fun c => !isPyWs c) with
    | nil => simp only [ht] at h; simp at h
    | cons a as =>
      have := takeWhile_ne_nil_append (q := fun c => !isPyWs c) z (by rw [ht]; simp)
      cases ht2 : (r ++ z).takeWhile (fun c => !isPyWs c) with
      | nil => exact absurd ht2 this
      | cons b bs => simp
  | none =>
    simp only [h1] at h
    cases h2 : litCI "http://".data l with
    | none => simp only [h2] at h; simp at h
    | some r =>
      simp only [h2] at h
      obtain ⟨w, hw1, hw2⟩ := litCI_decomp h2
      have hs : litCI "https://".data (l ++ z) = none := by
        rw [hw1, List.append_assoc]
        exact litCI_https_of_http hw2
      simp only [hs, litCI_append h2]
      cases ht : r.takeWhile (fun c => !isPyWs c) with
      | nil => simp only [ht] at h; simp at h
      | cons a as =>
        have := takeWhile_ne_nil_append (q := fun c => !isPyWs c) z (by rw [ht]; simp)
        cases ht2 : (r ++ z).takeWhile (fun c => !isPyWs c) with
        | nil => exact absurd ht2 this
        | cons b bs => simp

/-- A case-sensitive URL match is also a case-insensitive one. -/
theorem urlAt_to_CI {l : List Char} (h : (urlAt l).isSome) :
    (urlAtCI l).isSome := by
  unfold urlAt at h
  unfold urlAtCI
  cases h1 : litM "https://".data l with
  | some r =>
    simp only [h1] at h
    simp only [litM_to_litCI (by decide) h1]
    cases ht : r.takeWhile (fun c => !isPyWs c) with
    | nil => simp only [ht] at h; simp at h
    | cons a as => simp
  | none =>
    simp only [h1] at h
    cases h2 : litM "http://".data l with
    | none => simp only [h2] at h; simp at h
    | some r =>
      simp only [h2] at h
      have hw : ("http://".data).map lowerChar = "http://".data := by decide
      have hdec := litM_decomp h2
      have hs : litCI "https://".data l = none := by
        rw [hdec]
        exact litCI_https_of_http hw
      simp only [hs, litM_to_litCI hw h2]
      cases ht : r.takeWhile (fun c => !isPyWs c) with
      | nil => simp only [ht] at h; simp at h
      | cons a as => simp

/-- `urlAnyCI` holds exactly when some suffix begins with a URL. -/
theorem urlAnyCI_true_iff {l : List Char} :
    urlAnyCI l = true ↔ ∃ t, t <:+ l ∧ (urlAtCI t).isSome := by
  induction l with
  | nil =>
    constructor
    · intro h; cases h
    · rintro ⟨t, ht, hs⟩
      rw [List.suffix_nil.mp ht] at hs
      simp [urlAtCI, litCI] at hs
  | cons c cs ih =>
    rw [urlAnyCI]
    constructor
    · intro h
      rcases Bool.or_eq_true_iff.mp h with h | h
      · exact ⟨c :: cs, List.suffix_refl _, h⟩
      · obtain ⟨t, ht, hs⟩ := ih.mp h
        exact ⟨t, ht.trans (List.suffix_cons c cs), hs⟩
    · rintro ⟨t, ht, hs⟩
      rcases List.suffix_cons_iff.mp ht with rfl | ht'
      · exact Bool.or_eq_true_iff.mpr (Or.inl hs)
      · exact Bool.or_eq_true_iff.mpr (Or.inr (ih.mpr ⟨t, ht', hs⟩))

/-- URL-freeness is inherited by infixes. -/
theorem urlAnyCI_false_infix {m l : List Char} (hm : m <:+: l)
    (h : urlAnyCI l = false) : urlAnyCI m = false := by
  by_contra hc
  have hmt : urlAnyCI m = true := by
    cases hmv : urlAnyCI m with
    | false => exact absurd hmv hc
    | true => rfl
  obtain ⟨t, ht, hs⟩ := urlAnyCI_true_iff.mp hmt
  obtain ⟨u, v, huv⟩ := hm
  have h1 : t ++ v <:+ l := by
    refine List.IsSuffix.trans (suffix_append_right ht) ?_
    rw [← huv, List.append_assoc]
    exact List.suffix_append u (m ++ v)
  have := urlAnyCI_true_iff.mpr ⟨t ++ v, h1, urlAtCI_mono hs⟩
  rw [h] at this
  cases this

/-- Without any URL occurrence, the bare-URL search fails. -/
theorem urlSearch_none {l : List Char} (h : urlAnyCI l = false) :
    urlSearch l = none := by
  induction l with
  | nil => rfl
  | cons c cs ih =>
    rw [urlAnyCI, Bool.or_eq_false_iff] at h
    rw [urlSearch]
    cases hu : urlAt (c :: cs) with
    | some u =>
      exfalso
      have := urlAt_to_CI (by rw [hu]; rfl)
      rw [h.1] at this
      cases this
    | none => exact ih h.2

/-- The label tail only succeeds by matching a URL at a suffix. -/
theorem labelTail_to_CI {x u : List Char} (h : labelTail x = some u) :
    ∃ t, t <:+ x ∧ (urlAtCI t).isSome := by
  have h2 : x.dropWhile isPyWs <:+ x := List.dropWhile_suffix isPyWs
  unfold labelTail at h
  split at h
  · next t heq =>
    refine ⟨t.dropWhile isPyWs, ?_, by rw [h]; rfl⟩
    exact (List.dropWhile_suffix isPyWs).trans
      ((List.suffix_cons ':' t).trans (heq ▸ h2))
  · exact ⟨(x.dropWhile isPyWs).dropWhile isPyWs,
      (List.dropWhile_suffix isPyWs).trans h2, by rw [h]; rfl⟩

/-- The labelled-link attempt implies a URL occurrence. -/
theorem labelAt_to_CI {l u : List Char} (h : labelAt l = some u) :
    urlAnyCI l = true := by
  unfold labelAt at h
  split at h
  · cases h
  next r0 h0 =>
  split at h
  · cases h
  next r1 h1 =>
  have hr1 : r1 <:+ l :=
    ((litCI_suffix h1).trans (List.dropWhile_suffix isPyWs)).trans (litCI_suffix h0)
  split at h
  next r2 h2 =>
    have hr2 : r2 <:+ l :=
      ((digits1_suffix h2).trans (List.dropWhile_suffix isPyWs)).trans hr1
    split at h
    · next u' hlt =>
      cases h
      obtain ⟨t, ht, hs⟩ := labelTail_to_CI hlt
      exact urlAnyCI_true_iff.mpr ⟨t, ht.trans hr2, hs⟩
    · next hlt =>
      obtain ⟨t, ht, hs⟩ := labelTail_to_CI h
      exact urlAnyCI_true_iff.mpr ⟨t, ht.trans hr1, hs⟩
  next h2 =>
    obtain ⟨t, ht, hs⟩ := labelTail_to_CI h
    exact urlAnyCI_true_iff.mpr ⟨t, ht.trans hr1, hs⟩

/-- Without any URL occurrence, the labelled-link search fails. -/
theorem labelSearch_none {l : List Char} (h : urlAnyCI l = false) :
    labelSearch l = none := by
  induction l with
  | nil => rfl
  | cons c cs ih =>
    rw [urlAnyCI, Bool.or_eq_false_iff] at h
    rw [labelSearch]
    cases hu : labelAt (c :: cs) with
    | some u =>
      exfalso
      have := labelAt_to_CI hu
      rw [urlAnyCI, h.1, h.2] at this
      cases this
    | none => exact ih h.2

/-!  ## Shape lemmas for the extracted items -/

/-- The fields of a primary item, in terms of the named helpers. -/
theorem primaryItem_fields {b : List Char} {it : DayPlanItem}
    (h : primaryItem b = some it) :
    it = ⟨(blockTitleRest (pyStrip b)).1,
          topicOf (blockTitleRest (pyStrip b)).2,
          resolveLink (topicOf (blockTitleRest (pyStrip b)).2)
            (chosenLink (blockTitleRest (pyStrip b)).2),
          (questionsOf (blockTitleRest (pyStrip b)).2).take 10⟩ := by
  rw [primaryItem] at h
  split at h
  · cases h
  · split at h
    · cases h
    · exact (Option.some_inj.mp h).symm

/-- `synthLink` is never empty. -/
theorem synthLink_ne_nil (t : List Char) : synthLink t ≠ [] := by
  unfold synthLink
  split
  · decide
  · unfold searchUrlFor
    simp

/-- `resolveLink` is never empty. -/
theorem resolveLink_ne_nil (t v : List Char) : resolveLink t v ≠ [] := by
  unfold resolveLink fixEmptyLink
  split
  · exact synthLink_ne_nil t
  · next hv =>
    intro hc
    rw [hc] at hv
    simp at hv

/-- With no link found, `resolveLink` synthesizes one. -/
theorem resolveLink_of_nil (t : List Char) : resolveLink t [] = synthLink t := by
  have h1 : fixSentinelLink t [] = [] := by
    unfold fixSentinelLink
    rw [show containsSub sentinel ([] : List Char) = false from rfl]
    simp
  unfold resolveLink
  rw [h1]
  unfold fixEmptyLink
  simp

/-- With a sentinel-bearing link, `resolveLink` synthesizes one. -/
theorem resolveLink_of_sentinel {t v : List Char}
    (h : containsSub sentinel v = true) : resolveLink t v = synthLink t := by
  unfold resolveLink fixSentinelLink fixEmptyLink
  rw [h]
  simp only [if_true]
  split
  · next he => exact absurd (List.isEmpty_iff.mp he) (synthLink_ne_nil t)
  · rfl

/-!  ## Claim C6 (question cap) -/

/-- C6: every returned item carries at most 10 questions, and a primary
block whose practice-questions section parses to 15 (or more) non-empty
lines yields exactly the first 10 of them, in their original order. -/
theorem claim_C6_question_cap :
    (∀ (s : String), ∀ it ∈ extract_days_and_questions s,
      it.questions.length ≤ 10) ∧
    (∀ (b : List Char) (it : DayPlanItem), primaryItem b = some it →
      15 ≤ (questionsOf (blockTitleRest (pyStrip b)).2).length →
      it.questions = (questionsOf (blockTitleRest (pyStrip b)).2).take 10 ∧
      it.questions.length = 10) := by
  constructor
  · intro s it hit
    simp only [extract_days_and_questions, extractL] at hit
    split at hit
    · exact absurd hit (List.not_mem_nil it)
    · split at hit
      · obtain ⟨b, -, hb⟩ := List.mem_map.mp hit
        rw [← hb]
        exact List.length_take_le 10 _
      · obtain ⟨b, -, hb⟩ := List.mem_filterMap.mp hit
        rw [primaryItem_fields hb]
        exact List.length_take_le 10 _
  · intro b it h h15
    rw [primaryItem_fields h]
    refine ⟨rfl, ?_⟩
    rw [List.length_take]
    omega

/-- C6 witness: a block with 15 numbered lines keeps exactly the first 10. -/
theorem claim_C6_witness :
    (⟨"Day".data, [], genericUrl,
      ["A1".data, "A2".data, "A3".data, "A4".data, "A5".data, "A6".data,
       "A7".data, "A8".data, "A9".data, "A10".data]⟩ : DayPlanItem).questions =
      (questionsOf (blockTitleRest (pyStrip ("Day 1: T\nPractice Questions (10)\n1. A1\n2. A2\n3. A3\n4. A4\n5. A5\n6. A6\n7. A7\n8. A8\n9. A9\n10. A10\n11. A11\n12. A12\n13. A13\n14. A14\n15. A15").data)).2).take 10 ∧
    (⟨"Day".data, [], genericUrl,
      ["A1".data, "A2".data, "A3".data, "A4".data, "A5".data, "A6".data,
       "A7".data, "A8".data, "A9".data, "A10".data]⟩ : DayPlanItem).questions.length = 10 :=
  claim_C6_question_cap.2
    ("Day 1: T\nPractice Questions (10)\n1. A1\n2. A2\n3. A3\n4. A4\n5. A5\n6. A6\n7. A7\n8. A8\n9. A9\n10. A10\n11. A11\n12. A12\n13. A13\n14. A14\n15. A15").data
    _ (by decide) (by decide)

/-!  ## Claim C7 (link fallback) -/

/-- C7: a primary or fallback block whose topic is `"Recursion"` and which
contains no `http(s)` URL gets the synthesized search URL with the
URL-encoded `Recursion tutorial`; with an empty topic and no URL it gets
the fixed generic platform URL; and every returned item's `video_link` is
non-empty. -/
theorem claim_C7_link_fallback :
    (∀ (s : String), ∀ it ∈ extract_days_and_questions s,
      it.video_link ≠ []) ∧
    (∀ (b : List Char) (it : DayPlanItem), primaryItem b = some it →
      it.topic = "Recursion".data → urlAnyCI (pyStrip b) = false →
      it.video_link =
        "https://www.youtube.com/results?search_query=Recursion+tutorial".data) ∧
    (∀ (b : List Char) (it : DayPlanItem), primaryItem b = some it →
      it.topic = [] → urlAnyCI (pyStrip b) = false →
      it.video_link = genericUrl) ∧
    (∀ b : List Char, topicOf (pyStrip b) = "Recursion".data →
      urlAnyCI (pyStrip b) = false →
      (fallbackItem b).video_link =
        "https://www.youtube.com/results?search_query=Recursion+tutorial".data) ∧
    (∀ b : List Char, topicOf (pyStrip b) = [] → urlAnyCI (pyStrip b) = false →
      (fallbackItem b).video_link = genericUrl) := by
  have hprim : ∀ (b : List Char) (it : DayPlanItem), primaryItem b = some it →
      urlAnyCI (pyStrip b) = false →
      it.video_link = synthLink (topicOf (blockTitleRest (pyStrip b)).2) := by
    intro b it h hurl
    have hrest : urlAnyCI (blockTitleRest (pyStrip b)).2 = false :=
      urlAnyCI_false_infix (blockTitleRest_rest_isInfix _) hurl
    have hcl : chosenLink (blockTitleRest (pyStrip b)).2 = [] := by
      unfold chosenLink
      simp only [labelSearch_none hrest, urlSearch_none hrest]
    rw [primaryItem_fields h]
    show resolveLink (topicOf (blockTitleRest (pyStrip b)).2)
      (chosenLink (blockTitleRest (pyStrip b)).2) = _
    rw [hcl, resolveLink_of_nil]
  have hfall : ∀ b : List Char, urlAnyCI (pyStrip b) = false →
      (fallbackItem b).video_link = synthLink (topicOf (pyStrip b)) := by
    intro b hurl
    have hcl : fbChosenLink (pyStrip b) = [] := by
      unfold fbChosenLink
      simp only [urlSearch_none hurl]
    show resolveLink (topicOf (pyStrip b)) (fbChosenLink (pyStrip b)) = _
    rw [hcl, resolveLink_of_nil]
  refine ⟨?_, ?_, ?_, ?_, ?_⟩
  · intro s it hit
    simp only [extract_days_and_questions, extractL] at hit
    split at hit
    · exact absurd hit (List.not_mem_nil it)
    · split at hit
      · obtain ⟨b, -, hb⟩ := List.mem_map.mp hit
        rw [← hb]
        exact resolveLink_ne_nil _ _
      · obtain ⟨b, -, hb⟩ := List.mem_filterMap.mp hit
        rw [primaryItem_fields hb]
        exact resolveLink_ne_nil _ _
  · intro b it h htop hurl
    have htopic : topicOf (blockTitleRest (pyStrip b)).2 = "Recursion".data := by
      rw [primaryItem_fields h] at htop
      exact htop
    rw [hprim b it h hurl, htopic]
    decide
  · intro b it h htop hurl
    have htopic : topicOf (blockTitleRest (pyStrip b)).2 = [] := by
      rw [primaryItem_fields h] at htop
      exact htop
    rw [hprim b it h hurl, htopic]
    decide
  · intro b htop hurl
    rw [hfall b hurl, htop]
    decide
  · intro b htop hurl
    rw [hfall b hurl, htop]
    decide

/-- C7 witness: a primary block with topic `Recursion` and no URL, and a
fallback block with no topic and no URL. -/
theorem claim_C7_witness :
    (⟨"Day".data, "Recursion".data,
      "https://www.youtube.com/results?search_query=Recursion+tutorial".data,
      []⟩ : DayPlanItem).video_link =
      "https://www.youtube.com/results?search_query=Recursion+tutorial".data ∧
    (fallbackItem "Day 3 x".data).video_link = genericUrl :=
  ⟨claim_C7_link_fallback.2.1 "Day 1: A\nTopic: Recursion".data _
      (by decide) (by decide) (by decide),
   claim_C7_link_fallback.2.2.2.2 "Day 3 x".data (by decide) (by decide)⟩

/-!  ## Claim C8 (placeholder sentinel override) -/

/-- C8: when the link a block's extraction picks contains the
`VIDEO_ID_HERE` sentinel, it is treated as absent: the returned
`video_link` is the topic-derived search URL when the topic is non-empty
and the fixed generic platform URL when it is empty, never the sentinel
link itself — in both the primary and the fallback stage. -/
theorem claim_C8_sentinel_overridden :
    (∀ (b : List Char) (it : DayPlanItem), primaryItem b = some it →
      containsSub sentinel (chosenLink (blockTitleRest (pyStrip b)).2) = true →
      it.video_link =
        (if it.topic.isEmpty then genericUrl else searchUrlFor it.topic)) ∧
    (∀ b : List Char,
      containsSub sentinel (fbChosenLink (pyStrip b)) = true →
      (fallbackItem b).video_link =
        (if (fallbackItem b).topic.isEmpty then genericUrl
         else searchUrlFor (fallbackItem b).topic)) := by
  constructor
  · intro b it h hsent
    rw [primaryItem_fields h]
    show resolveLink (topicOf (blockTitleRest (pyStrip b)).2)
      (chosenLink (blockTitleRest (pyStrip b)).2) = _
    rw [resolveLink_of_sentinel hsent]
    rfl
  · intro b hsent
    show resolveLink (topicOf (pyStrip b)) (fbChosenLink (pyStrip b)) = _
    rw [resolveLink_of_sentinel hsent]
    rfl

/-- C8 witness: a primary block whose only URL carries the sentinel (topic
`Loops`), and a fallback block whose only URL carries the sentinel (no
topic). -/
theorem claim_C8_witness :
    (⟨"Day".data, "Loops".data,
      "https://www.youtube.com/results?search_query=Loops+tutorial".data,
      []⟩ : DayPlanItem).video_link =
      (if (⟨"Day".data, "Loops".data,
        "https://www.youtube.com/results?search_query=Loops+tutorial".data,
        []⟩ : DayPlanItem).topic.isEmpty then genericUrl
       else searchUrlFor (⟨"Day".data, "Loops".data,
        "https://www.youtube.com/results?search_query=Loops+tutorial".data,
        []⟩ : DayPlanItem).topic) ∧
    (fallbackItem "Day 3 x\nhttps://youtu.be/VIDEO_ID_HERE".data).video_link =
      (if (fallbackItem "Day 3 x\nhttps://youtu.be/VIDEO_ID_HERE".data).topic.isEmpty
       then genericUrl
       else searchUrlFor (fallbackItem "Day 3 x\nhttps://youtu.be/VIDEO_ID_HERE".data).topic) :=
  ⟨claim_C8_sentinel_overridden.1
      "Day 1: A\nTopic: Loops\nhttps://youtu.be/VIDEO_ID_HERE".data _
      (by decide) (by decide),
   claim_C8_sentinel_overridden.2 "Day 3 x\nhttps://youtu.be/VIDEO_ID_HERE".data
      (by decide)⟩

/-!  ## Stripping and whitespace lemmas -/

theorem all_dropWhile_nil {p : Char → Bool} {u : List Char} (h : u.all p = true) :
    u.dropWhile p = [] :=
  List.dropWhile_eq_nil_iff.mpr (fun x hx => List.all_eq_true.mp h x hx)

theorem dropWhile_append_all {p : Char → Bool} {u v : List Char}
    (h : u.all p = true) : (u ++ v).dropWhile p = v.dropWhile p := by
  rw [List.dropWhile_append, all_dropWhile_nil h]
  rfl

theorem dropWhile_append_ne {p : Char → Bool} {u v : List Char}
    (h : u.dropWhile p ≠ []) : (u ++ v).dropWhile p = u.dropWhile p ++ v := by
  rw [List.dropWhile_append, if_neg]
  simpa using h

theorem dropWhile_idem {p : Char → Bool} (l : List Char) :
    (l.dropWhile p).dropWhile p = l.dropWhile p := by
  induction l with
  | nil => rfl
  | cons c cs ih =>
    by_cases hp : p c
    · rw [List.dropWhile_cons_of_pos hp, ih]
    · rw [List.dropWhile_cons_of_neg hp, List.dropWhile_cons_of_neg hp]

theorem isBlankL_reverse (l : List Char) : isBlankL l.reverse = isBlankL l := by
  simp [isBlankL, List.all_reverse]

theorem stripL_idem (l : List Char) : stripL (stripL l) = stripL l :=
  dropWhile_idem l

theorem stripR_reverse_eq (l : List Char) :
    (stripR l).reverse = l.reverse.dropWhile isPyWs := by
  rw [stripR, List.reverse_reverse]

theorem stripR_idem (l : List Char) : stripR (stripR l) = stripR l := by
  rw [stripR, stripR_reverse_eq, dropWhile_idem, ← stripR_reverse_eq,
    List.reverse_reverse]

theorem stripL_of_blank {l : List Char} (h : isBlankL l = true) : stripL l = [] :=
  all_dropWhile_nil h

theorem stripL_eq_nil_iff {l : List Char} : stripL l = [] ↔ isBlankL l = true := by
  simp [stripL, List.dropWhile_eq_nil_iff, isBlankL, List.all_eq_true]

theorem stripR_eq_nil_iff {l : List Char} : stripR l = [] ↔ isBlankL l = true := by
  simp [stripR, List.dropWhile_eq_nil_iff, isBlankL, List.all_eq_true]

theorem stripR_of_blank {l : List Char} (h : isBlankL l = true) : stripR l = [] :=
  stripR_eq_nil_iff.mpr h

theorem stripL_append_of_nil {u v : List Char} (h : stripL u = []) :
    stripL (u ++ v) = stripL v :=
  dropWhile_append_all (stripL_eq_nil_iff.mp h)

theorem stripL_append_ne {u v : List Char} (h : stripL u ≠ []) :
    stripL (u ++ v) = stripL u ++ v :=
  dropWhile_append_ne h

theorem stripR_isPrefix (l : List Char) : stripR l <+: l := by
  rw [stripR]
  refine List.reverse_suffix.mp ?_
  simpa using List.dropWhile_suffix (l := l.reverse) isPyWs

theorem stripL_cons_of_not {c : Char} {l : List Char} (h : isPyWs c = false) :
    stripL (c :: l) = c :: l :=
  List.dropWhile_cons_of_neg (by simp [h])

theorem stripL_not_ws {l : List Char} (h : stripL l ≠ []) :
    isPyWs ((stripL l).head h) = false :=
  List.head_dropWhile_not isPyWs l h

theorem stripL_stripR {m : List Char} (h : stripL m = m) :
    stripL (stripR m) = stripR m := by
  cases m with
  | nil => rw [stripR]; rfl
  | cons c t =>
    have hc : isPyWs c = false := by
      by_contra hcc
      rw [stripL, List.dropWhile_cons_of_pos (by simpa using hcc)] at h
      have h1 := congrArg List.length h
      have h2 := (List.dropWhile_suffix (l := t) isPyWs).length_le
      simp only [List.length_cons] at h1
      omega
    cases hsr : stripR (c :: t) with
    | nil => rfl
    | cons d ds =>
      obtain ⟨w, hw⟩ := stripR_isPrefix (c :: t)
      rw [hsr] at hw
      have hd : d = c := by
        have := congrArg (fun l => l.head?) hw
        simpa using this
      rw [hd]
      exact stripL_cons_of_not hc

theorem pyStrip_idem (l : List Char) : pyStrip (pyStrip l) = pyStrip l := by
  rw [pyStrip, pyStrip, stripL_stripR (stripL_idem l), stripR_idem]

theorem pyStrip_eq_nil_iff {l : List Char} :
    pyStrip l = [] ↔ isBlankL l = true := by
  rw [pyStrip, stripR_eq_nil_iff]
  constructor
  · intro h
    rw [← stripL_eq_nil_iff]
    have h2 := stripL_of_blank h
    rwa [stripL_idem] at h2
  · intro h
    rw [stripL_of_blank h]
    rfl

theorem stripR_append_ws {l w : List Char} (hw : w.all isPyWs = true) :
    stripR (l ++ w) = stripR l := by
  rw [stripR, stripR, List.reverse_append,
    dropWhile_append_all (by simpa [List.all_reverse] using hw)]

theorem stripL_ws_append {w l : List Char} (hw : w.all isPyWs = true) :
    stripL (w ++ l) = stripL l :=
  dropWhile_append_all hw

theorem stripR_decomp (l : List Char) :
    ∃ w, l = stripR l ++ w ∧ w.all isPyWs = true := by
  refine ⟨(l.reverse.takeWhile isPyWs).reverse, ?_, ?_⟩
  · rw [stripR]
    have := congrArg List.reverse (List.takeWhile_append_dropWhile isPyWs l.reverse)
    rw [List.reverse_append, List.reverse_reverse] at this
    exact this.symm
  · rw [List.all_eq_true]
    intro x hx
    exact List.mem_takeWhile_imp (List.mem_reverse.mp hx)

theorem pyStrip_stripL (l : List Char) : pyStrip (stripL l) = pyStrip l := by
  rw [pyStrip, stripL_idem]
  rfl

theorem pyStrip_append_ws {l w : List Char} (hw : w.all isPyWs = true) :
    pyStrip (l ++ w) = pyStrip l := by
  rw [pyStrip, pyStrip]
  by_cases h : stripL l = []
  · have h2 : stripL (l ++ w) = [] := by
      rw [stripL_append_of_nil h]
      exact stripL_of_blank hw
    rw [h, h2]
  · rw [stripL_append_ne h, stripR_append_ws hw]

theorem pyStrip_stripR (l : List Char) : pyStrip (stripR l) = pyStrip l := by
  obtain ⟨w, hl, hw⟩ := stripR_decomp l
  conv_rhs => rw [hl]
  rw [pyStrip_append_ws hw]

theorem pyStrip_ws_append {w l : List Char} (hw : w.all isPyWs = true) :
    pyStrip (w ++ l) = pyStrip l := by
  rw [pyStrip, stripL_ws_append hw]
  rfl

/-!  ## splitlines / join lemmas -/

theorem pySplitAux_nil (acc : List Char) :
    pySplitAux [] acc = if acc.isEmpty then [] else [acc.reverse] := rfl

theorem pySplitAux_nl (m acc : List Char) :
    pySplitAux ('\n' :: m) acc = acc.reverse :: pySplitAux m [] := rfl

theorem pySplitAux_other {c : Char} (h : isLineBreak c = false)
    (m acc : List Char) : pySplitAux (c :: m) acc = pySplitAux m (c :: acc) := by
  rw [pySplitAux.eq_def]
  split
  · rename_i heq
    exact absurd heq (List.cons_ne_nil c m)
  · rename_i heq
    injection heq with h1 h2
    rw [h1] at h
    simp [isLineBreak] at h
  · rename_i heq
    injection heq with h1 h2
    subst h1
    subst h2
    rw [if_neg (by simp [h])]

theorem joinNl_cons {a : List Char} {rest : List (List Char)} (h : rest ≠ []) :
    joinNl (a :: rest) = a ++ '\n' :: joinNl rest := by
  cases rest with
  | nil => exact absurd rfl h
  | cons b t => rfl

theorem pySplitAux_join_step {a : List Char} (ha : breakFree a = true)
    (m acc : List Char) :
    pySplitAux (a ++ '\n' :: m) acc = (acc.reverse ++ a) :: pySplitAux m [] := by
  induction a generalizing acc with
  | nil => simpa using pySplitAux_nl m acc
  | cons c a' ih =>
    rw [breakFree, List.all_cons, Bool.and_eq_true] at ha
    have hc : isLineBreak c = false := by
      rcases ha with ⟨h1, -⟩
      cases hcv : isLineBreak c
      · rfl
      · rw [hcv] at h1; cases h1
    rw [List.cons_append, pySplitAux_other hc, ih (by exact ha.2)]
    simp

theorem pySplitAux_join_last {a : List Char} (ha : breakFree a = true)
    (acc : List Char) :
    pySplitAux a acc =
      if (acc.reverse ++ a).isEmpty then [] else [acc.reverse ++ a] := by
  induction a generalizing acc with
  | nil => simp [pySplitAux_nil]
  | cons c a' ih =>
    rw [breakFree, List.all_cons, Bool.and_eq_true] at ha
    have hc : isLineBreak c = false := by
      rcases ha with ⟨h1, -⟩
      cases hcv : isLineBreak c
      · rfl
      · rw [hcv] at h1; cases h1
    rw [pySplitAux_other hc, ih (by exact ha.2)]
    simp

/-- Joining break-free lines whose last line is non-empty and splitting
again recovers the lines. -/
theorem pySplitLines_joinNl {ls : List (List Char)}
    (hb : ∀ l ∈ ls, breakFree l = true) (hlast : ls.getLast? ≠ some []) :
    pySplitLines (joinNl ls) = ls := by
  induction ls with
  | nil => rfl
  | cons a rest ih =>
    cases rest with
    | nil =>
      have ha : a ≠ [] := by
        intro hc
        exact hlast (by rw [hc]; rfl)
      rw [joinNl, pySplitLines, pySplitAux_join_last (hb a (by simp)) []]
      simp [ha]
    | cons b t =>
      rw [joinNl_cons (by simp), pySplitLines,
        pySplitAux_join_step (hb a (by simp)) _ []]
      have := ih (fun l hl => hb l (by simp [hl])) (by
        rwa [List.getLast?_cons_cons] at hlast)
      rw [pySplitLines] at this
      simp [this]

theorem pySplitAux_crlf (m acc : List Char) :
    pySplitAux ('\r' :: '\n' :: m) acc = acc.reverse :: pySplitAux m [] := rfl

theorem pySplitAux_cr_nil (acc : List Char) :
    pySplitAux ['\r'] acc = acc.reverse :: pySplitAux [] [] := rfl

theorem pySplitAux_cr_cons {d : Char} (hd : d ≠ '\n') (rest acc : List Char) :
    pySplitAux ('\r' :: d :: rest) acc = acc.reverse :: pySplitAux (d :: rest) [] := by
  rw [pySplitAux.eq_def]
  split
  · rename_i heq
    exact absurd heq (List.cons_ne_nil _ _)
  · rename_i heq
    injection heq with h1 h2
    injection h2 with h3 h4
    exact absurd h3 hd
  · rename_i heq
    injection heq with h1 h2
    subst h1
    subst h2
    rw [if_pos (by decide)]

theorem pySplitAux_break {c : Char} (h1 : isLineBreak c = true) (h2 : c ≠ '\r')
    (m acc : List Char) :
    pySplitAux (c :: m) acc = acc.reverse :: pySplitAux m [] := by
  rw [pySplitAux.eq_def]
  split
  · rename_i heq
    exact absurd heq (List.cons_ne_nil c m)
  · rename_i heq
    injection heq with h3 h4
    exact absurd h3 h2
  · rename_i heq
    injection heq with h3 h4
    subst h3
    subst h4
    rw [if_pos h1]

theorem pySplitTail_of_ne {c : Char} (hc : c ≠ '\r') (m : List Char) :
    pySplitTail c m = m := by
  rw [pySplitTail, if_neg]
  intro hcc
  exact hc hcc.1

theorem pySplitTail_crlf (rest : List Char) :
    pySplitTail '\r' ('\n' :: rest) = rest := by
  rw [pySplitTail, if_pos ⟨rfl, rfl⟩]
  rfl

theorem pySplitTail_cr_other {m : List Char} (hm : m.head? ≠ some '\n') :
    pySplitTail '\r' m = m := by
  rw [pySplitTail, if_neg]
  intro hcc
  exact hm hcc.2

theorem pySplitTail_length (c : Char) (m : List Char) :
    (pySplitTail c m).length ≤ m.length := by
  rw [pySplitTail]
  split
  · cases m <;> simp
  · exact le_refl _

/-- Every step of `pySplitAux` either emits the accumulator at a break or
moves one character into the accumulator. -/
theorem pySplitAux_cases (m : List Char) :
    ∀ c acc, (isLineBreak c = true ∧
        pySplitAux (c :: m) acc = acc.reverse :: pySplitAux (pySplitTail c m) []) ∨
      (isLineBreak c = false ∧ pySplitAux (c :: m) acc = pySplitAux m (c :: acc)) := by
  intro c acc
  by_cases hbr : isLineBreak c = true
  · refine Or.inl ⟨hbr, ?_⟩
    by_cases hcr : c = '\r'
    · subst hcr
      cases m with
      | nil => rw [pySplitTail_cr_other (by simp), pySplitAux_cr_nil]
      | cons d rest =>
        by_cases hd : d = '\n'
        · subst hd
          rw [pySplitTail_crlf, pySplitAux_crlf]
        · rw [pySplitTail_cr_other (by simpa using hd), pySplitAux_cr_cons hd]
    · rw [pySplitTail_of_ne hcr, pySplitAux_break hbr hcr]
  · exact Or.inr ⟨by simpa using hbr, pySplitAux_other (by simpa using hbr) m acc⟩

/-- A recursion principle matching how `pySplitAux` consumes its input. -/
theorem pySplitAux_rec (P : List Char → List Char → Prop)
    (hnil : ∀ acc, P [] acc)
    (hemit : ∀ c m acc, isLineBreak c = true →
      pySplitAux (c :: m) acc = acc.reverse :: pySplitAux (pySplitTail c m) []
      → P (pySplitTail c m) [] → P (c :: m) acc)
    (hkeep : ∀ c m acc, isLineBreak c = false → P m (c :: acc) → P (c :: m) acc) :
    ∀ m acc, P m acc := by
  suffices h : ∀ (n : Nat) (m : List Char), m.length ≤ n → ∀ acc, P m acc by
    exact fun m acc => h m.length m (le_refl _) acc
  intro n
  induction n with
  | zero =>
    intro m hm acc
    cases m with
    | nil => exact hnil acc
    | cons c rest => simp at hm
  | succ n ih =>
    intro m hm acc
    cases m with
    | nil => exact hnil acc
    | cons c rest =>
      rcases pySplitAux_cases rest c acc with ⟨hbr, heq⟩ | ⟨hbr, heq⟩
      · refine hemit c rest acc hbr heq ?_
        refine ih (pySplitTail c rest) ?_ []
        have := pySplitTail_length c rest
        simp only [List.length_cons] at hm
        omega
      · refine hkeep c rest acc hbr ?_
        refine ih rest ?_ (c :: acc)
        simp only [List.length_cons] at hm
        omega

/-- Every produced line is free of line-break characters. -/
theorem pySplitLines_breakFree {x : List Char} :
    ∀ l ∈ pySplitLines x, breakFree l = true := by
  have main := pySplitAux_rec
    (fun m acc => (∀ c ∈ acc, isLineBreak c = false) →
      ∀ l ∈ pySplitAux m acc, breakFree l = true)
    (by
      intro acc hacc l hl
      rw [pySplitAux_nil] at hl
      split at hl
      · cases hl
      · rw [List.mem_singleton] at hl
        subst hl
        rw [breakFree, List.all_eq_true]
        intro c hc
        simpa using hacc c (List.mem_reverse.mp hc))
    (by
      intro c m acc hbr heq ihp hacc l hl
      rw [heq] at hl
      rcases List.mem_cons.mp hl with rfl | hl2
      · rw [breakFree, List.all_eq_true]
        intro c2 hc
        simpa using hacc c2 (List.mem_reverse.mp hc)
      · exact ihp (by simp) l hl2)
    (by
      intro c m acc hbr ihp hacc l hl
      rw [pySplitAux_other hbr] at hl
      refine ihp ?_ l hl
      intro c2 hc2
      rcases List.mem_cons.mp hc2 with rfl | hc3
      · exact hbr
      · exact hacc c2 hc3)
  exact main x [] (by simp)

theorem pySplitTail_suffix (c : Char) (m : List Char) : pySplitTail c m <:+ m := by
  rw [pySplitTail]
  split
  · cases m with
    | nil => exact List.suffix_refl _
    | cons d t => exact List.suffix_cons d t
  · exact List.suffix_refl _

/-- Every produced line is an infix of the input. -/
theorem pySplitLines_isInfix {x : List Char} :
    ∀ l ∈ pySplitLines x, l <:+: x := by
  have main := pySplitAux_rec
    (fun m acc => ∀ l ∈ pySplitAux m acc, l <:+: (acc.reverse ++ m))
    (by
      intro acc l hl
      rw [pySplitAux_nil] at hl
      split at hl
      · cases hl
      · rw [List.mem_singleton] at hl
        subst hl
        simp)
    (by
      intro c m acc hbr heq ihp l hl
      rw [heq] at hl
      rcases List.mem_cons.mp hl with rfl | hl2
      · exact (List.prefix_append acc.reverse (c :: m)).isInfix
      · have h1 := ihp l hl2
        simp only [List.reverse_nil, List.nil_append] at h1
        have h2 : pySplitTail c m <:+: acc.reverse ++ c :: m := by
          refine List.IsInfix.trans ((pySplitTail_suffix c m).isInfix) ?_
          exact ((List.suffix_cons c m).trans (List.suffix_append acc.reverse _)).isInfix
        exact h1.trans h2)
    (by
      intro c m acc hbr ihp l hl
      rw [pySplitAux_other hbr] at hl
      have := ihp l hl
      simpa [List.append_assoc] using this)
  have := main x []
  simpa using this

/-- A non-empty input has at least one line. -/
theorem pySplitLines_ne_nil {x : List Char} (hx : x ≠ []) :
    pySplitLines x ≠ [] := by
  have main := pySplitAux_rec
    (fun m acc => m ≠ [] ∨ acc ≠ [] → pySplitAux m acc ≠ [])
    (by
      intro acc h
      rcases h with h | h
      · exact absurd rfl h
      · rw [pySplitAux_nil, if_neg (by simpa using h)]
        simp)
    (by
      intro c m acc hbr heq ihp h
      rw [heq]
      simp)
    (by
      intro c m acc hbr ihp h
      rw [pySplitAux_other hbr]
      exact ihp (Or.inr (by simp)))
  exact main x [] (Or.inl hx)

/-!  ## join-level stripping lemmas -/

theorem joinNl_append {A B : List (List Char)} (hA : A ≠ []) (hB : B ≠ []) :
    joinNl (A ++ B) = joinNl A ++ '\n' :: joinNl B := by
  induction A with
  | nil => exact absurd rfl hA
  | cons a A' ih =>
    cases A' with
    | nil =>
      rw [List.cons_append, List.nil_append, joinNl_cons hB]
      rfl
    | cons a2 A'' =>
      rw [List.cons_append, joinNl_cons (by simp), joinNl_cons (by simp),
        ih (by simp)]
      simp

theorem stripL_joinNl (ls : List (List Char)) :
    stripL (joinNl ls) = joinNl (updateHeadL stripL (ls.dropWhile isBlankL)) := by
  induction ls with
  | nil => rfl
  | cons a rest ih =>
    by_cases ha : isBlankL a = true
    · rw [List.dropWhile_cons_of_pos (by simpa using ha)]
      cases rest with
      | nil =>
        show stripL (joinNl [a]) = _
        rw [joinNl, stripL_of_blank ha]
        rfl
      | cons b t =>
        rw [joinNl_cons (by simp)]
        rw [stripL_ws_append (by simpa [isBlankL] using ha)]
        rw [show stripL ('\n' :: joinNl (b :: t)) = stripL (joinNl (b :: t)) from
          List.dropWhile_cons_of_pos (by decide)]
        exact ih
    · rw [List.dropWhile_cons_of_neg (by simpa using ha)]
      have hla : stripL a ≠ [] := by
        rw [Ne, stripL_eq_nil_iff]
        simpa using ha
      cases rest with
      | nil =>
        show stripL (joinNl [a]) = joinNl [stripL a]
        rw [joinNl, joinNl]
      | cons b t =>
        rw [joinNl_cons (by simp), stripL_append_ne hla, updateHeadL]
        exact (joinNl_cons (by simp)).symm

theorem joinNl_reverse (ls : List (List Char)) :
    (joinNl ls).reverse = joinNl ((ls.map List.reverse).reverse) := by
  induction ls with
  | nil => rfl
  | cons a rest ih =>
    cases rest with
    | nil => simp [joinNl]
    | cons b t =>
      rw [joinNl_cons (by simp), List.reverse_append, List.reverse_cons, ih]
      have hR : (List.map List.reverse (a :: b :: t)).reverse
          = ((List.map List.reverse t).reverse ++ [b.reverse]) ++ [a.reverse] := by
        simp
      rw [hR, joinNl_append (by simp) (by simp : ([a.reverse] : List (List Char)) ≠ [])]
      simp [joinNl, List.append_assoc]

theorem stripL_reverse (l : List Char) : stripL l.reverse = (stripR l).reverse := by
  rw [stripR, List.reverse_reverse]
  rfl

theorem updateHead_map_rev (Y : List (List Char)) :
    updateHeadL stripL (Y.map List.reverse) =
      (updateHeadL stripR Y).map List.reverse := by
  cases Y with
  | nil => rfl
  | cons y t =>
    rw [List.map_cons, updateHeadL, updateHeadL, List.map_cons, stripL_reverse]

theorem stripR_joinNl (ls : List (List Char)) :
    stripR (joinNl ls) =
      joinNl (updateLastL stripR (dropTrailBlanksL ls)) := by
  have h1 : (joinNl ls).reverse = joinNl ((ls.reverse).map List.reverse) := by
    rw [joinNl_reverse, List.map_reverse]
  have h2 : stripR (joinNl ls) = (stripL ((joinNl ls).reverse)).reverse := by
    rw [stripL_reverse, List.reverse_reverse]
  rw [h2, h1, stripL_joinNl]
  have h3 : ((ls.reverse).map List.reverse).dropWhile isBlankL =
      ((ls.reverse).dropWhile isBlankL).map List.reverse := by
    rw [List.dropWhile_map]
    congr 1
    simp only [Function.comp_def, isBlankL_reverse]
  rw [h3, updateHead_map_rev, joinNl_reverse]
  have h5 : List.map List.reverse
      (List.map List.reverse (updateHeadL stripR (List.dropWhile isBlankL ls.reverse)))
      = updateHeadL stripR (List.dropWhile isBlankL ls.reverse) := by
    rw [List.map_map]
    have h4 : (List.reverse ∘ List.reverse : List Char → List Char) = id := by
      funext z
      simp
    rw [h4, List.map_id]
  rw [h5, updateLastL, dropTrailBlanksL, List.reverse_reverse]

/-- Stripping a `"\n"`-join trims blank edge lines and strips the outermost
remaining lines. -/
theorem pyStrip_joinNl (ls : List (List Char)) :
    pyStrip (joinNl ls) = joinNl (edgeTrimL ls) := by
  rw [pyStrip, stripL_joinNl, stripR_joinNl, edgeTrimL]

/-!  ## Substring occurrence algebra -/

theorem litM_of_append (p r : List Char) : litM p (p ++ r) = some r := by
  induction p with
  | nil => rfl
  | cons q ps ih => simp [litM, ih]

theorem litM_isSome_iff {p l : List Char} :
    (litM p l).isSome = true ↔ p <+: l := by
  constructor
  · intro h
    obtain ⟨r, hr⟩ := Option.isSome_iff_exists.mp h
    exact ⟨r, (litM_decomp hr).symm⟩
  · rintro ⟨r, rfl⟩
    rw [litM_of_append]
    rfl

theorem containsSub_iff_isInfix {p l : List Char} :
    containsSub p l = true ↔ p <:+: l := by
  induction l with
  | nil => simp [containsSub, List.isEmpty_iff]
  | cons c cs ih =>
    rw [containsSub, Bool.or_eq_true, litM_isSome_iff, ih,
      List.infix_cons_iff]

theorem noSub_isInfix {p m l : List Char} (hm : m <:+: l)
    (h : containsSub p l = false) : containsSub p m = false := by
  by_contra hc
  rw [Bool.not_eq_false, containsSub_iff_isInfix] at hc
  rw [← Bool.not_eq_true, containsSub_iff_isInfix] at h
  exact h (hc.trans hm)

theorem prefix_append_cons {p A B : List Char} {x : Char}
    (h : p <+: A ++ x :: B) (hx : x ∉ p) : p <+: A := by
  by_cases hlen : p.length ≤ A.length
  · exact List.prefix_of_prefix_length_le h (List.prefix_append A (x :: B)) hlen
  · have h2 : A ++ [x] <+: p := by
      refine List.prefix_of_prefix_length_le ⟨B, by simp⟩ h ?_
      simp only [List.length_append, List.length_singleton]
      omega
    exact absurd (h2.subset (by simp)) hx

theorem containsSub_append_cons {p A B : List Char} {x : Char} (hp : p ≠ [])
    (hx : x ∉ p) (hA : containsSub p A = false) (hB : containsSub p B = false) :
    containsSub p (A ++ x :: B) = false := by
  induction A with
  | nil =>
    rw [List.nil_append, containsSub, Bool.or_eq_false_iff]
    refine ⟨?_, hB⟩
    rw [Bool.eq_false_iff]
    intro hs
    cases p with
    | nil => exact hp rfl
    | cons q qs =>
      have h1 := (List.cons_prefix_cons.mp (litM_isSome_iff.mp hs)).1
      exact hx (List.mem_cons.mpr (Or.inl h1.symm))
  | cons a A' ihA =>
    rw [containsSub, Bool.or_eq_false_iff] at hA
    rw [List.cons_append, containsSub, Bool.or_eq_false_iff]
    refine ⟨?_, ihA hA.2⟩
    rw [Bool.eq_false_iff]
    intro hs
    have h1 : p <+: a :: A' := by
      have := litM_isSome_iff.mp hs
      rw [show a :: (A' ++ x :: B) = (a :: A') ++ x :: B from rfl] at this
      exact prefix_append_cons this hx
    rw [← litM_isSome_iff] at h1
    exact absurd h1 (by simp [hA.1])

theorem noSub_join_nl {p : List Char} {ls : List (List Char)} (hp : p ≠ [])
    (hnl : '\n' ∉ p) (h : ∀ l ∈ ls, containsSub p l = false) :
    containsSub p (joinNl ls) = false := by
  induction ls with
  | nil =>
    rw [show joinNl [] = [] from rfl, containsSub]
    simpa using hp
  | cons a rest ih =>
    cases rest with
    | nil => exact h a (by simp)
    | cons b t =>
      rw [joinNl_cons (by simp)]
      exact containsSub_append_cons hp hnl (h a (by simp))
        (ih (fun l hl => h l (by simp [hl])))

theorem litCI_isSome_eq (p l : List Char) :
    (litCI p l).isSome = (litM p (l.map lowerChar)).isSome := by
  induction p generalizing l with
  | nil => simp [litCI, litM]
  | cons q ps ih =>
    cases l with
    | nil => simp [litCI, litM]
    | cons c cs =>
      simp only [litCI, litM, List.map_cons]
      by_cases he : lowerChar c = q
      · rw [if_pos he, if_pos he]
        exact ih cs
      · rw [if_neg he, if_neg he]

theorem containsSubCI_eq (p l : List Char) :
    containsSubCI p l = containsSub p (l.map lowerChar) := by
  induction l with
  | nil => rfl
  | cons c cs ih =>
    rw [containsSubCI, List.map_cons, containsSub, ← List.map_cons,
      litCI_isSome_eq, ih, List.map_cons]

theorem map_lowerChar_joinNl (ls : List (List Char)) :
    (joinNl ls).map lowerChar = joinNl (ls.map (List.map lowerChar)) := by
  induction ls with
  | nil => rfl
  | cons a rest ih =>
    cases rest with
    | nil => rfl
    | cons b t =>
      have hnl : lowerChar '\n' = '\n' := by decide
      rw [joinNl_cons (show (b :: t : List (List Char)) ≠ [] from by simp),
        List.map_append, List.map_cons, ih]
      simp only [List.map_cons, hnl]
      rw [joinNl_cons (show List.map lowerChar b ::
          List.map (List.map lowerChar) t ≠ [] from by simp)]

theorem noSubCI_isInfix {p m l : List Char} (hm : m <:+: l)
    (h : containsSubCI p l = false) : containsSubCI p m = false := by
  rw [containsSubCI_eq] at h ⊢
  exact noSub_isInfix (hm.map lowerChar) h

/-- Texts derivable from fragments of `z`: the closure of the infixes of `z`
under joining with `"\n"` and taking infixes again.  Every intermediate
string of the sanitizer's line-level stage lives in this closure. -/
inductive Der (z : List Char) : List Char → Prop
  | of_infix {m : List Char} : m <:+: z → Der z m
  | join {ls : List (List Char)} : (∀ l ∈ ls, Der z l) → Der z (joinNl ls)
  | sub {m m' : List Char} : Der z m → m' <:+: m → Der z m'

theorem Der.trans {x z y : List Char} (hz : Der x z) (hy : Der z y) :
    Der x y := by
  induction hy with
  | of_infix h => exact hz.sub h
  | join h ih => exact Der.join ih
  | sub h hinf ih => exact ih.sub hinf

theorem Der.self (z : List Char) : Der z z := Der.of_infix (List.infix_refl z)

theorem Der.nil (z : List Char) : Der z [] :=
  Der.of_infix List.nil_infix

theorem Der.ofStrip {z m : List Char} (h : Der z m) : Der z (pyStrip m) :=
  h.sub (pyStrip_isInfix m)

theorem Der.ofLine {z m l : List Char} (h : Der z m)
    (hl : l ∈ pySplitLines m) : Der z l :=
  h.sub (pySplitLines_isInfix l hl)

theorem Der.noSub {z y p : List Char} (hp : p ≠ []) (hnl : '\n' ∉ p)
    (hd : Der z y) (hz : containsSub p z = false) :
    containsSub p y = false := by
  induction hd with
  | of_infix h => exact noSub_isInfix h hz
  | join h ih => exact noSub_join_nl hp hnl ih
  | sub h hinf ih => exact noSub_isInfix hinf ih

theorem Der.noSubCI {z y p : List Char} (hp : p ≠ []) (hnl : '\n' ∉ p)
    (hd : Der z y) (hz : containsSubCI p z = false) :
    containsSubCI p y = false := by
  induction hd with
  | of_infix h => exact noSubCI_isInfix h hz
  | join h ih =>
    rw [containsSubCI_eq, map_lowerChar_joinNl]
    refine noSub_join_nl hp hnl ?_
    intro l hl
    rw [List.mem_map] at hl
    obtain ⟨l0, hl0, rfl⟩ := hl
    rw [← containsSubCI_eq]
    exact ih l0 hl0
  | sub h hinf ih => exact noSubCI_isInfix hinf ih

/-!  ## The three removal passes are the identity on pattern-free text -/

theorem noSub_tail {p : List Char} {c : Char} {cs : List Char}
    (h : containsSub p (c :: cs) = false) : containsSub p cs = false := by
  rw [containsSub, Bool.or_eq_false_iff] at h
  exact h.2

theorem noSubCI_tail {p : List Char} {c : Char} {cs : List Char}
    (h : containsSubCI p (c :: cs) = false) : containsSubCI p cs = false := by
  rw [containsSubCI, Bool.or_eq_false_iff] at h
  exact h.2

theorem litM_none_of_noSub {p l : List Char} (h : containsSub p l = false) :
    litM p l = none := by
  cases hm : litM p l with
  | none => rfl
  | some r =>
    exfalso
    have h1 : containsSub p l = true := containsSub_iff_isInfix.mpr
      (litM_isSome_iff.mp (by rw [hm]; rfl)).isInfix
    rw [h1] at h
    cases h

theorem fenceTry_none {l : List Char}
    (h : containsSub "```".data l = false) : fenceTry l = none := by
  rw [fenceTry, litM_none_of_noSub h]

theorem fenceScanF_id {l : List Char} (h : containsSub "```".data l = false)
    (fuel : Nat) : fenceScanF fuel l = l := by
  induction fuel generalizing l with
  | zero => rfl
  | succ n ih =>
    cases l with
    | nil => rfl
    | cons c cs => simp only [fenceScanF, fenceTry_none h, ih (noSub_tail h)]

theorem fenceRm_id {l : List Char} (h : containsSub "```".data l = false) :
    fenceRm l = l := fenceScanF_id h l.length

theorem teTry_none {l : List Char}
    (h : containsSubCI "toolexception".data l = false) : teTry l = none := by
  rw [teTry]
  cases h1 : litCI "error:".data l with
  | none => rfl
  | some r1 =>
    dsimp only
    cases h2 : litCI "toolexception(".data (r1.dropWhile isPyWs) with
    | none => rfl
    | some r2 =>
      exfalso
      have hs : containsSubCI "toolexception".data (r1.dropWhile isPyWs)
          = true := by
        rw [containsSubCI_eq, containsSub_iff_isInfix]
        obtain ⟨w, hw1, hw2⟩ := litCI_decomp h2
        refine List.IsPrefix.isInfix ?_
        rw [hw1, List.map_append, hw2]
        exact ⟨'(' :: r2.map lowerChar, rfl⟩
      have hinf : r1.dropWhile isPyWs <:+: l :=
        ((List.dropWhile_suffix isPyWs).trans (litCI_suffix h1)).isInfix
      rw [noSubCI_isInfix hinf h] at hs
      cases hs

theorem teScanF_id {l : List Char}
    (h : containsSubCI "toolexception".data l = false) (fuel : Nat) :
    teScanF fuel l = l := by
  induction fuel generalizing l with
  | zero => rfl
  | succ n ih =>
    cases l with
    | nil => rfl
    | cons c cs => simp only [teScanF, teTry_none h, ih (noSubCI_tail h)]

theorem teRm_id {l : List Char}
    (h : containsSubCI "toolexception".data l = false) : teRm l = l :=
  teScanF_id h l.length

theorem djTry_none {l : List Char}
    (h : containsSub "\"data\"".data l = false) : djTry l = none := by
  cases l with
  | nil => rfl
  | cons c r0 =>
    unfold djTry
    split
    · rename_i r1 heq
      have hr0 : r0 = r1 := by injection heq
      cases h1 : litM "\"data\"".data (List.dropWhile isPyWs r1) with
      | none => rfl
      | some r2 =>
        exfalso
        have hs : containsSub "\"data\"".data (List.dropWhile isPyWs r1)
            = true := by
          rw [containsSub_iff_isInfix]
          exact (litM_isSome_iff.mp (by rw [h1]; rfl)).isInfix
        have hsuf : r1 <:+ c :: r0 := by
          rw [← hr0]
          exact List.suffix_cons c r0
        have hinf : List.dropWhile isPyWs r1 <:+: c :: r0 :=
          ((List.dropWhile_suffix isPyWs).trans hsuf).isInfix
        rw [noSub_isInfix hinf h] at hs
        cases hs
    · rfl

theorem djScanF_id {l : List Char}
    (h : containsSub "\"data\"".data l = false) (fuel : Nat) :
    djScanF fuel l = l := by
  induction fuel generalizing l with
  | zero => rfl
  | succ n ih =>
    cases l with
    | nil => rfl
    | cons c cs => simp only [djScanF, djTry_none h, ih (noSub_tail h)]

theorem djRm_id {l : List Char}
    (h : containsSub "\"data\"".data l = false) : djRm l = l :=
  djScanF_id h l.length

/-!  ## Line-filter stability and the canonical form of `cleaned` -/

theorem keepOrNorm_some_cases {ln l : List Char} (h : keepOrNorm ln = some l) :
    l = [] ∨ l = ln := by
  rw [keepOrNorm] at h
  split at h
  · exact Or.inl (by injection h with h2; exact h2.symm)
  · split at h
    · cases h
    · split at h
      · cases h
      · exact Or.inr (by injection h with h2; exact h2.symm)

theorem keepOrNorm_congr {l m : List Char} (h : keepOrNorm l = some l)
    (hl : l ≠ []) (hm : pyStrip m = pyStrip l) : keepOrNorm m = some m := by
  rw [keepOrNorm] at h
  by_cases h1 : (pyStrip l).isEmpty
  · rw [if_pos h1] at h
    injection h with h2
    exact absurd h2.symm hl
  · rw [if_neg h1] at h
    by_cases h2 : traceLineB (pyStrip l)
    · rw [if_pos h2] at h
      cases h
    · rw [if_neg h2] at h
      by_cases h3 : bareJsonB (pyStrip l)
      · rw [if_pos h3] at h
        cases h
      · rw [keepOrNorm, hm, if_neg h1, if_neg h2, if_neg h3]

theorem keepOrNorm_stripL {l : List Char} (h : keepOrNorm l = some l) :
    keepOrNorm (stripL l) = some (stripL l) := by
  rcases eq_or_ne l [] with rfl | hl
  · rfl
  · exact keepOrNorm_congr h hl (pyStrip_stripL l)

theorem keepOrNorm_stripR {l : List Char} (h : keepOrNorm l = some l) :
    keepOrNorm (stripR l) = some (stripR l) := by
  rcases eq_or_ne l [] with rfl | hl
  · rfl
  · exact keepOrNorm_congr h hl (pyStrip_stripR l)

theorem breakFree_infix {m l : List Char} (hm : m <:+: l)
    (h : breakFree l = true) : breakFree m = true := by
  rw [breakFree, List.all_eq_true] at h ⊢
  exact fun c hc => h c (hm.subset hc)

theorem mem_updateHeadL {f : List Char → List Char} {ls : List (List Char)}
    {l : List Char} (h : l ∈ updateHeadL f ls) :
    l ∈ ls ∨ ∃ l0 ∈ ls, l = f l0 := by
  cases ls with
  | nil => cases h
  | cons a t =>
    rw [updateHeadL] at h
    rcases List.mem_cons.mp h with rfl | h2
    · exact Or.inr ⟨a, by simp, rfl⟩
    · exact Or.inl (by simp [h2])

theorem mem_updateLastL {f : List Char → List Char} {ls : List (List Char)}
    {l : List Char} (h : l ∈ updateLastL f ls) :
    l ∈ ls ∨ ∃ l0 ∈ ls, l = f l0 := by
  rw [updateLastL, List.mem_reverse] at h
  rcases mem_updateHeadL h with h2 | ⟨l0, hl0, rfl⟩
  · exact Or.inl (List.mem_reverse.mp h2)
  · exact Or.inr ⟨l0, List.mem_reverse.mp hl0, rfl⟩

theorem mem_dropTrailBlanksL {ls : List (List Char)} {l : List Char}
    (h : l ∈ dropTrailBlanksL ls) : l ∈ ls := by
  rw [dropTrailBlanksL, List.mem_reverse] at h
  exact List.mem_reverse.mp ((List.dropWhile_suffix _).subset h)

theorem mem_edgeTrimL {ls : List (List Char)} {l : List Char}
    (h : l ∈ edgeTrimL ls) :
    ∃ l0 ∈ ls, l = l0 ∨ l = stripL l0 ∨ l = stripR l0 ∨
      l = stripR (stripL l0) := by
  rw [edgeTrimL] at h
  rcases mem_updateLastL h with h1 | ⟨l1, hl1, rfl⟩
  · rcases mem_updateHeadL (mem_dropTrailBlanksL h1) with h2 | ⟨l0, hl0, rfl⟩
    · exact ⟨l, (List.dropWhile_suffix _).subset h2, Or.inl rfl⟩
    · exact ⟨l0, (List.dropWhile_suffix _).subset hl0, Or.inr (Or.inl rfl)⟩
  · rcases mem_updateHeadL (mem_dropTrailBlanksL hl1) with h2 | ⟨l0, hl0, rfl⟩
    · exact ⟨l1, (List.dropWhile_suffix _).subset h2, Or.inr (Or.inr (Or.inl rfl))⟩
    · exact ⟨l0, (List.dropWhile_suffix _).subset hl0,
        Or.inr (Or.inr (Or.inr rfl))⟩

theorem dropWhile_head_false {α : Type} {p : α → Bool} {X : List α} {h : α}
    {t : List α} (he : X.dropWhile p = h :: t) : p h = false := by
  induction X with
  | nil => cases he
  | cons a X' ih =>
    rw [List.dropWhile_cons] at he
    split at he
    · exact ih he
    · rename_i hpa
      injection he with h1 h2
      subst h1
      simpa using hpa

theorem updateHeadL_head? (f : List Char → List Char)
    (Z : List (List Char)) : (updateHeadL f Z).head? = Z.head?.map f := by
  cases Z <;> rfl

theorem updateLastL_getLast? (f : List Char → List Char)
    (ls : List (List Char)) :
    (updateLastL f ls).getLast? = ls.getLast?.map f := by
  rw [updateLastL, List.getLast?_reverse, updateHeadL_head?, List.head?_reverse]

theorem dropTrailBlanksL_getLast {X : List (List Char)} {y : List Char}
    (h : (dropTrailBlanksL X).getLast? = some y) : isBlankL y = false := by
  rw [dropTrailBlanksL, List.getLast?_reverse] at h
  cases he : X.reverse.dropWhile isBlankL with
  | nil => rw [he] at h; cases h
  | cons a t =>
    rw [he] at h
    injection h with h2
    rw [← h2]
    exact dropWhile_head_false he

theorem edgeTrimL_last_ne_nil (ls : List (List Char)) :
    (edgeTrimL ls).getLast? ≠ some [] := by
  rw [edgeTrimL, updateLastL_getLast?]
  intro h
  rw [Option.map_eq_some'] at h
  obtain ⟨y, hy, hfy⟩ := h
  have hb := dropTrailBlanksL_getLast hy
  rw [stripR_eq_nil_iff] at hfy
  rw [hfy] at hb
  cases hb

theorem edgeTrimL_breakFree {ls : List (List Char)}
    (h : ∀ l ∈ ls, breakFree l = true) :
    ∀ l ∈ edgeTrimL ls, breakFree l = true := by
  intro l hl
  obtain ⟨l0, hl0, hc⟩ := mem_edgeTrimL hl
  rcases hc with rfl | rfl | rfl | rfl
  · exact h l hl0
  · exact breakFree_infix (List.dropWhile_suffix isPyWs).isInfix (h l0 hl0)
  · exact breakFree_infix (stripR_isPrefix l0).isInfix (h l0 hl0)
  · exact breakFree_infix ((stripR_isPrefix _).isInfix.trans
      (List.dropWhile_suffix isPyWs).isInfix) (h l0 hl0)

/-- Splitting a stripped `"\n"`-join recovers the edge-trimmed line list. -/
theorem pySplitLines_strip_join {ls : List (List Char)}
    (hb : ∀ l ∈ ls, breakFree l = true) :
    pySplitLines (pyStrip (joinNl ls)) = edgeTrimL ls := by
  rw [pyStrip_joinNl]
  exact pySplitLines_joinNl (edgeTrimL_breakFree hb) (edgeTrimL_last_ne_nil ls)

/-- The stripped `"\n"`-join of filter-stable break-free lines is canonical. -/
theorem strip_join_canon {ls : List (List Char)}
    (h : ∀ l ∈ ls, keepOrNorm l = some l ∧ breakFree l = true) :
    CanonB (pyStrip (joinNl ls)) := by
  have hb : ∀ l ∈ ls, breakFree l = true := fun l hl => (h l hl).2
  have hlines := pySplitLines_strip_join hb
  refine ⟨?_, ?_, pyStrip_idem _⟩
  · rw [hlines]
    intro l hl
    refine ⟨?_, edgeTrimL_breakFree hb l hl⟩
    obtain ⟨l0, hl0, hc⟩ := mem_edgeTrimL hl
    have hk := (h l0 hl0).1
    rcases hc with rfl | rfl | rfl | rfl
    · exact hk
    · exact keepOrNorm_stripL hk
    · exact keepOrNorm_stripR hk
    · exact keepOrNorm_stripR (keepOrNorm_stripL hk)
  · rw [hlines, ← pyStrip_joinNl]

theorem filteredLines_spec (t : List Char) :
    ∀ l ∈ filteredLines t, keepOrNorm l = some l ∧ breakFree l = true := by
  intro l hl
  rw [filteredLines, List.mem_filterMap] at hl
  obtain ⟨ln, hln, hk⟩ := hl
  rcases keepOrNorm_some_cases hk with rfl | rfl
  · exact ⟨rfl, rfl⟩
  · exact ⟨hk, pySplitLines_breakFree l hln⟩

/-- `cleaned` is always in canonical form. -/
theorem canon_cleanedOf (t : List Char) : CanonB (cleanedOf t) := by
  rw [cleanedOf]
  exact strip_join_canon (filteredLines_spec t)

theorem filterMap_eq_self_of {α : Type} {f : α → Option α} {l : List α}
    (h : ∀ x ∈ l, f x = some x) : l.filterMap f = l := by
  induction l with
  | nil => rfl
  | cons a t ih =>
    rw [List.filterMap_cons, h a (by simp)]
    dsimp only
    rw [ih (fun x hx => h x (by simp [hx]))]

/-- The cleaning stage is the identity on canonical text. -/
theorem canon_cleaned_fix {z : List Char} (h : CanonB z) : cleanedOf z = z := by
  obtain ⟨h1, h2, h3⟩ := h
  rw [cleanedOf, filteredLines,
    filterMap_eq_self_of (fun l hl => (h1 l hl).1), h2, h3]

/-!  ## The day-header test ignores surrounding whitespace -/

theorem lowerChar_ws {c : Char} (h : isPyWs c = true) : lowerChar c = c := by
  rw [lowerChar, if_neg]
  rintro ⟨h1, h2⟩
  simp only [isPyWs, Bool.or_eq_true, Bool.and_eq_true, decide_eq_true_eq] at h
  omega

theorem litCI_append_ws {p m w : List Char} (hw : w.all isPyWs = true)
    (hp : p.all (fun q => !isPyWs q) = true) :
    litCI p (m ++ w) = (litCI p m).map (· ++ w) := by
  induction p generalizing m with
  | nil => simp [litCI]
  | cons q ps ih =>
    rw [List.all_cons, Bool.and_eq_true] at hp
    cases m with
    | nil =>
      rw [List.nil_append]
      cases w with
      | nil => simp [litCI]
      | cons c w' =>
        have hc : isPyWs c = true := by
          rw [List.all_cons, Bool.and_eq_true] at hw
          exact hw.1
        have hne : ¬lowerChar c = q := by
          rw [lowerChar_ws hc]
          intro hcq
          rw [hcq] at hc
          rw [show isPyWs q = false from by simpa using hp.1] at hc
          cases hc
        simp [litCI, hne]
    | cons c m' =>
      rw [List.cons_append]
      simp only [litCI]
      by_cases hc : lowerChar c = q
      · rw [if_pos hc, if_pos hc, ih hp.2]
      · rw [if_neg hc, if_neg hc]
        rfl

theorem all_of_suffix {w' w : List Char} (h : w' <:+ w)
    (hw : w.all isPyWs = true) : w'.all isPyWs = true := by
  rw [List.all_eq_true] at hw ⊢
  exact fun c hc => hw c (h.subset hc)

/-- Appending trailing whitespace does not change whether the day-header
pattern matches at the start. -/
theorem dayHdr_append_ws {m w : List Char} (hw : w.all isPyWs = true) :
    (dayHdrSepAfter (m ++ w)).isSome = (dayHdrSepAfter m).isSome := by
  rw [dayHdrSepAfter, dayHdrSepAfter]
  cases h1 : litCI "day".data m with
  | none =>
    have h1' : litCI "day".data (m ++ w) = none := by
      rw [litCI_append_ws hw (by decide), h1]
      rfl
    rw [h1']
  | some r0 =>
    have h1' : litCI "day".data (m ++ w) = some (r0 ++ w) := by
      rw [litCI_append_ws hw (by decide), h1]
      rfl
    rw [h1']
    dsimp only
    cases r0 with
    | nil =>
      rw [show ws1 [] = none from rfl]
      rw [List.nil_append]
      cases w with
      | nil => rw [show ws1 [] = none from rfl]
      | cons c w' =>
        have hc : isPyWs c = true := by
          rw [List.all_cons, Bool.and_eq_true] at hw
          exact hw.1
        rw [show ws1 (c :: w') = some ((c :: w').dropWhile isPyWs) from by
          rw [ws1, if_pos (by simp [hc])]]
        dsimp only
        rw [all_dropWhile_nil hw]
        rw [show digits1 [] = none from rfl]
    | cons c r0' =>
      by_cases hc : isPyWs c = true
      · rw [show ws1 (c :: r0') = some ((c :: r0').dropWhile isPyWs) from by
          rw [ws1, if_pos (by simp [hc])]]
        rw [List.cons_append]
        rw [show ws1 (c :: (r0' ++ w)) = some ((c :: (r0' ++ w)).dropWhile isPyWs)
          from by rw [ws1, if_pos (by simp [hc])]]
        dsimp only
        rw [show (c :: (r0' ++ w)) = (c :: r0') ++ w from rfl]
        by_cases hs : (c :: r0').dropWhile isPyWs = []
        · have hall : (c :: r0').all isPyWs = true := by
            rw [List.all_eq_true]
            exact fun x hx => List.dropWhile_eq_nil_iff.mp hs x hx
          rw [dropWhile_append_all hall, all_dropWhile_nil hw, hs]
        · rw [dropWhile_append_ne hs]
          cases hs2 : (c :: r0').dropWhile isPyWs with
          | nil => exact absurd hs2 hs
          | cons d s' =>
            rw [List.cons_append]
            by_cases hd : isAsciiDigit d = true
            · rw [show digits1 (d :: s') = some ((d :: s').dropWhile isAsciiDigit)
                from by rw [digits1, if_pos (by simp [hd])]]
              rw [show digits1 (d :: (s' ++ w)) =
                  some ((d :: (s' ++ w)).dropWhile isAsciiDigit) from by
                rw [digits1, if_pos (by simp [hd])]]
              dsimp only
              rw [show (d :: (s' ++ w)) = (d :: s') ++ w from rfl]
              by_cases hu : (d :: s').dropWhile isAsciiDigit = []
              · have hallu : (d :: s').all isAsciiDigit = true := by
                  rw [List.all_eq_true]
                  exact fun x hx => List.dropWhile_eq_nil_iff.mp hu x hx
                rw [dropWhile_append_all hallu, hu, all_dropWhile_nil
                  (all_of_suffix (List.dropWhile_suffix isAsciiDigit) hw)]
                rfl
              · rw [dropWhile_append_ne hu]
                by_cases hv :
                    ((d :: s').dropWhile isAsciiDigit).dropWhile isPyWs = []
                · have hallv :
                      ((d :: s').dropWhile isAsciiDigit).all isPyWs = true := by
                    rw [List.all_eq_true]
                    exact fun x hx => List.dropWhile_eq_nil_iff.mp hv x hx
                  rw [dropWhile_append_all hallv, all_dropWhile_nil hw, hv]
                · rw [dropWhile_append_ne hv]
                  cases hv2 :
                      ((d :: s').dropWhile isAsciiDigit).dropWhile isPyWs with
                  | nil => exact absurd hv2 hv
                  | cons e v' =>
                    rw [List.cons_append]
                    split
                    · rename_i t heq
                      injection heq with h1 h2
                      subst h1
                      rfl
                    · rename_i t heq
                      injection heq with h1 h2
                      subst h1
                      rfl
                    · rename_i hne1 hne2
                      split
                      · rename_i t heq
                        injection heq with h1 h2
                        subst h1
                        exact absurd rfl (hne1 (v' ++ w))
                      · rename_i t heq
                        injection heq with h1 h2
                        subst h1
                        exact absurd rfl (hne2 (v' ++ w))
                      · rfl
            · rw [show digits1 (d :: s') = none from by
                rw [digits1, if_neg (by simp [hd])]]
              rw [show digits1 (d :: (s' ++ w)) = none from by
                rw [digits1, if_neg (by simp [hd])]]
      · rw [show ws1 (c :: r0') = none from by rw [ws1, if_neg (by simp [hc])]]
        rw [List.cons_append]
        rw [show ws1 (c :: (r0' ++ w)) = none from by
          rw [ws1, if_neg (by simp [hc])]]

theorem isDayLine_stripL (l : List Char) : isDayLine (stripL l) = isDayLine l := by
  rw [isDayLine, isDayLine, stripL, dropWhile_idem]

theorem isBlankL_stripL (l : List Char) : isBlankL (stripL l) = isBlankL l := by
  refine Bool.eq_iff_iff.mpr ?_
  rw [← stripL_eq_nil_iff, stripL_idem, stripL_eq_nil_iff]

theorem isDayLine_nil : isDayLine [] = false := rfl

theorem isDayLine_stripR (l : List Char) : isDayLine (stripR l) = isDayLine l := by
  by_cases hb : isBlankL l = true
  · rw [stripR_of_blank hb, isDayLine, isDayLine,
      show l.dropWhile isPyWs = [] from stripL_of_blank hb]
    rfl
  · have hne : (stripR l).dropWhile isPyWs ≠ [] := by
      rw [show (stripR l).dropWhile isPyWs = stripL (stripR l) from rfl, Ne,
        stripL_eq_nil_iff]
      intro hbl
      have h2 := stripR_idem l
      rw [stripR_of_blank hbl] at h2
      rw [← stripR_eq_nil_iff] at hb
      exact hb h2.symm
    obtain ⟨w, hl, hw⟩ := stripR_decomp l
    rw [isDayLine, isDayLine]
    conv_rhs => rw [hl]
    rw [show (stripR l ++ w).dropWhile isPyWs =
      (stripR l).dropWhile isPyWs ++ w from dropWhile_append_ne hne]
    exact (dayHdr_append_ws hw).symm

theorem isDayLine_pyStrip (l : List Char) :
    isDayLine (pyStrip l) = isDayLine l := by
  rw [pyStrip, isDayLine_stripR, isDayLine_stripL]

theorem isDayLine_nonblank {d : List Char} (h : isDayLine d = true) :
    isBlankL d = false := by
  by_contra hb
  rw [Bool.not_eq_false] at hb
  rw [isDayLine, show d.dropWhile isPyWs = [] from stripL_of_blank hb] at h
  cases h

/-!  ## Structure of the edge-trimmed line list -/

theorem takeWhile_append_of {α : Type} {p : α → Bool} {A B : List α}
    (h : ∀ a ∈ A, p a = true) : (A ++ B).takeWhile p = A ++ B.takeWhile p := by
  induction A with
  | nil => rfl
  | cons a A2 ih =>
    rw [List.cons_append, List.takeWhile_cons_of_pos (h a (by simp)),
      ih (fun x hx => h x (by simp [hx])), List.cons_append]

theorem dropWhile_append_of {α : Type} {p : α → Bool} {A B : List α}
    (h : ∀ a ∈ A, p a = true) : (A ++ B).dropWhile p = B.dropWhile p := by
  induction A with
  | nil => rfl
  | cons a A2 ih =>
    rw [List.cons_append, List.dropWhile_cons_of_pos (h a (by simp)),
      ih (fun x hx => h x (by simp [hx]))]

theorem dropWhile_append_ne2 {α : Type} {p : α → Bool} {A B : List α}
    (h : A.dropWhile p ≠ []) : (A ++ B).dropWhile p = A.dropWhile p ++ B := by
  rw [List.dropWhile_append, if_neg (by simpa using h)]

theorem updateHeadL_append {f : List Char → List Char} {A B : List (List Char)}
    (h : A ≠ []) : updateHeadL f (A ++ B) = updateHeadL f A ++ B := by
  cases A with
  | nil => exact absurd rfl h
  | cons a t => rfl

theorem head?_of_isPrefix {α : Type} {X Y : List α} (h : X <+: Y) (hne : X ≠ []) :
    Y.head? = X.head? := by
  obtain ⟨t, rfl⟩ := h
  cases X with
  | nil => exact absurd rfl hne
  | cons a s => rfl

theorem getLast?_append_right {α : Type} {A B : List α} (h : B ≠ []) :
    (A ++ B).getLast? = B.getLast? := by
  rw [← List.head?_reverse, ← List.head?_reverse, List.reverse_append]
  exact head?_of_isPrefix (List.prefix_append _ _) (by simpa using h)

theorem getLast?_of_suffix {α : Type} {X Y : List α} (h : X <:+ Y)
    (hne : X ≠ []) : Y.getLast? = X.getLast? := by
  obtain ⟨t, rfl⟩ := h
  rw [getLast?_append_right hne]

theorem mem_of_getLast? {α : Type} {X : List α} {a : α}
    (h : X.getLast? = some a) : a ∈ X := by
  rw [← List.head?_reverse] at h
  rw [← List.mem_reverse]
  cases hx : X.reverse with
  | nil => rw [hx] at h; cases h
  | cons b t =>
    rw [hx] at h
    injection h with h2
    exact List.mem_cons.mpr (Or.inl h2.symm)

theorem prefix_dropTrailBlanksL (X : List (List Char)) :
    dropTrailBlanksL X <+: X := by
  rw [dropTrailBlanksL]
  refine List.reverse_suffix.mp ?_
  simpa using List.dropWhile_suffix (l := X.reverse) isBlankL

theorem dropTrail_id_of_last {X : List (List Char)} {y : List Char}
    (h : X.getLast? = some y) (hy : isBlankL y = false) :
    dropTrailBlanksL X = X := by
  rw [dropTrailBlanksL]
  rw [← List.head?_reverse] at h
  cases hx : X.reverse with
  | nil => rw [hx] at h; cases h
  | cons b t =>
    rw [hx] at h
    injection h with h2
    rw [List.dropWhile_cons_of_neg (by rw [h2]; simp [hy]), ← hx,
      List.reverse_reverse]

theorem updateLast_id_of_fixed {f : List Char → List Char}
    {X : List (List Char)} {y : List Char} (h : X.getLast? = some y)
    (hy : f y = y) : updateLastL f X = X := by
  rw [updateLastL]
  rw [← List.head?_reverse] at h
  cases hx : X.reverse with
  | nil => rw [hx] at h; cases h
  | cons b t =>
    rw [hx] at h
    injection h with h2
    rw [updateHeadL, h2, hy, ← h2, ← hx, List.reverse_reverse]

theorem updateLast_cons {f : List Char → List Char} {x : List Char}
    {ys : List (List Char)} (h : ys ≠ []) :
    updateLastL f (x :: ys) = x :: updateLastL f ys := by
  rw [updateLastL, updateLastL, List.reverse_cons,
    updateHeadL_append (by simpa using h), List.reverse_append]
  simp

theorem updateLastL_head?_cases {f : List Char → List Char}
    {Z : List (List Char)} {y : List Char}
    (h : (updateLastL f Z).head? = some y) :
    ∃ z, Z.head? = some z ∧ (y = z ∨ y = f z) := by
  cases Z with
  | nil =>
    rw [show updateLastL f ([] : List (List Char)) = [] from rfl] at h
    cases h
  | cons z t =>
    cases t with
    | nil =>
      refine ⟨z, rfl, Or.inr ?_⟩
      rw [show updateLastL f [z] = [f z] from rfl] at h
      injection h with h2
      exact h2.symm
    | cons z2 t2 =>
      rw [updateLast_cons (by simp)] at h
      injection h with h2
      exact ⟨z, rfl, Or.inl h2.symm⟩

theorem edgeTrim_last_fixed {X : List (List Char)} {y : List Char}
    (h : (edgeTrimL X).getLast? = some y) : stripR y = y := by
  rw [edgeTrimL, updateLastL_getLast?, Option.map_eq_some'] at h
  obtain ⟨y0, hy0, rfl⟩ := h
  exact stripR_idem y0

theorem edgeTrim_last_nonblank {X : List (List Char)} {y : List Char}
    (h : (edgeTrimL X).getLast? = some y) : isBlankL y = false := by
  rw [edgeTrimL, updateLastL_getLast?, Option.map_eq_some'] at h
  obtain ⟨y0, hy0, rfl⟩ := h
  have hb := dropTrailBlanksL_getLast hy0
  by_contra hc
  rw [Bool.not_eq_false] at hc
  rw [← stripR_eq_nil_iff, stripR_idem, stripR_eq_nil_iff] at hc
  rw [hc] at hb
  cases hb

theorem edgeTrim_head_fixed {X : List (List Char)} {y : List Char}
    (h : (edgeTrimL X).head? = some y) : stripL y = y := by
  rw [edgeTrimL] at h
  obtain ⟨z, hz, hy⟩ := updateLastL_head?_cases h
  have hd1ne : dropTrailBlanksL (updateHeadL stripL
      (X.dropWhile isBlankL)) ≠ [] := by
    intro hn
    rw [hn] at hz
    cases hz
  have hz0 : (updateHeadL stripL (X.dropWhile isBlankL)).head? = some z := by
    rw [head?_of_isPrefix (prefix_dropTrailBlanksL _) hd1ne]
    exact hz
  rw [updateHeadL_head?, Option.map_eq_some'] at hz0
  obtain ⟨w, hw, rfl⟩ := hz0
  rcases hy with rfl | rfl
  · exact stripL_idem w
  · exact stripL_stripR (stripL_idem w)

theorem pySplitLines_single {m : List Char} (hm : m ≠ [])
    (hb : breakFree m = true) : pySplitLines m = [m] := by
  rw [pySplitLines, pySplitAux_join_last hb, if_neg (by simpa using hm)]
  simp

/-- Edge-trimming an append whose right part ends in a fixed non-blank line
and whose left part holds a non-blank line only renormalises the left part. -/
theorem edgeTrim_append {A B : List (List Char)} {bl a0 : List Char}
    (hBl : B.getLast? = some bl) (hbl : isBlankL bl = false)
    (hfix : stripR bl = bl) (hA : a0 ∈ A) (ha0 : isBlankL a0 = false) :
    edgeTrimL (A ++ B) = updateHeadL stripL (A.dropWhile isBlankL) ++ B := by
  have hAne : A.dropWhile isBlankL ≠ [] := by
    intro hn
    rw [List.dropWhile_eq_nil_iff] at hn
    rw [hn a0 hA] at ha0
    cases ha0
  have hBne : B ≠ [] := by
    intro hn
    rw [hn] at hBl
    cases hBl
  rw [edgeTrimL, dropWhile_append_ne2 hAne, updateHeadL_append hAne]
  have hlast : (updateHeadL stripL (A.dropWhile isBlankL) ++ B).getLast?
      = some bl := by
    rw [getLast?_append_right hBne]
    exact hBl
  rw [dropTrail_id_of_last hlast hbl, updateLast_id_of_fixed hlast hfix]

theorem drop_last_two {α : Type} : ∀ (L : List α), L ≠ [] →
    (∃ b, L.drop (L.length - 2) = [b]) ∨
    ∃ a b, L.drop (L.length - 2) = [a, b]
  | [], h => absurd rfl h
  | [x], _ => Or.inl ⟨x, rfl⟩
  | [x, y], _ => Or.inr ⟨x, y, rfl⟩
  | x :: y :: z :: u, _ => by
    have ih := drop_last_two (y :: z :: u) (by simp)
    have hlen : (x :: y :: z :: u).length - 2
        = ((y :: z :: u).length - 2) + 1 := by
      simp only [List.length_cons]
      omega
    rw [hlen, List.drop_succ_cons]
    exact ih

/-!  ## The day-trim step on canonical text -/

theorem dropTrail_cons_nonblank {x : List Char} {xs : List (List Char)}
    (h : isBlankL x = false) :
    dropTrailBlanksL (x :: xs) = x :: dropTrailBlanksL xs := by
  rw [dropTrailBlanksL, dropTrailBlanksL, List.reverse_cons]
  by_cases hxs : xs.reverse.dropWhile isBlankL = []
  · rw [dropWhile_append_of (fun a ha => List.dropWhile_eq_nil_iff.mp hxs a ha),
      hxs, List.dropWhile_cons_of_neg (by simp [h])]
    rfl
  · rw [dropWhile_append_ne2 hxs, List.reverse_append]
    simp

theorem edgeTrim_day_cons {d : List Char} (rest : List (List Char))
    (hd : isDayLine d = true) :
    ∃ m0 B2, edgeTrimL (d :: rest) = m0 :: B2 ∧ isDayLine m0 = true := by
  have hdb : isBlankL d = false := isDayLine_nonblank hd
  have h1 : edgeTrimL (d :: rest)
      = updateLastL stripR (stripL d :: dropTrailBlanksL rest) := by
    rw [edgeTrimL, List.dropWhile_cons_of_neg (by simp [hdb]),
      show updateHeadL stripL (d :: rest) = stripL d :: rest from rfl,
      dropTrail_cons_nonblank (by rw [isBlankL_stripL]; exact hdb)]
  cases hq : dropTrailBlanksL rest with
  | nil =>
    rw [h1, hq, show updateLastL stripR [stripL d] = [stripR (stripL d)] from rfl]
    refine ⟨stripR (stripL d), [], rfl, ?_⟩
    rw [isDayLine_stripR, isDayLine_stripL]
    exact hd
  | cons q qs =>
    rw [h1, hq, updateLast_cons (by simp)]
    refine ⟨stripL d, updateLastL stripR (q :: qs), rfl, ?_⟩
    rw [isDayLine_stripL]
    exact hd

theorem title_glue {T Blines : List (List Char)} {body : List Char}
    (hT : T ≠ []) (hB : Blines ≠ []) (hjoin : joinNl Blines = body) :
    joinNl T ++ '\n' :: '\n' :: body = joinNl (T ++ [] :: Blines) := by
  have h1 : joinNl (T ++ [] :: Blines)
      = joinNl T ++ '\n' :: joinNl ([] :: Blines) := joinNl_append hT (by simp)
  have h2 : joinNl ([] :: Blines) = [] ++ '\n' :: joinNl Blines := joinNl_cons hB
  rw [h1, h2, hjoin, List.nil_append]

theorem dayTrim_of_post_nil {z : List Char}
    (h : (pySplitLines z).dropWhile (fun l => !isDayLine l) = []) :
    dayTrim z = z := by
  rw [dayTrim]
  dsimp only
  rw [h]
  rfl

theorem dayTrim_of_pre_nil {z : List Char}
    (hpost : (pySplitLines z).dropWhile (fun l => !isDayLine l) ≠ [])
    (hpre : (pySplitLines z).takeWhile (fun l => !isDayLine l) = []) :
    dayTrim z = z := by
  rw [dayTrim]
  dsimp only
  rw [if_neg (by simpa [List.isEmpty_iff] using hpost), hpre]
  rfl

theorem dayTrim_of_main {z : List Char}
    (hpost : (pySplitLines z).dropWhile (fun l => !isDayLine l) ≠ [])
    (hpre : (pySplitLines z).takeWhile (fun l => !isDayLine l) ≠ []) :
    dayTrim z =
      (if (joinNl ((pySplitLines (pyStrip (joinNl ((pySplitLines z).takeWhile
            (fun l => !isDayLine l))))).drop
            ((pySplitLines (pyStrip (joinNl ((pySplitLines z).takeWhile
              (fun l => !isDayLine l))))).length - 2))).isEmpty = true
        then pyStrip (joinNl ((pySplitLines z).dropWhile
          (fun l => !isDayLine l)))
        else pyStrip ((joinNl ((pySplitLines (pyStrip (joinNl
            ((pySplitLines z).takeWhile (fun l => !isDayLine l))))).drop
            ((pySplitLines (pyStrip (joinNl ((pySplitLines z).takeWhile
              (fun l => !isDayLine l))))).length - 2))) ++
          '\n' :: '\n' :: pyStrip (joinNl ((pySplitLines z).dropWhile
            (fun l => !isDayLine l))))) := by
  rw [dayTrim]
  dsimp only
  rw [if_neg (by simpa [List.isEmpty_iff] using hpost),
    if_neg (by simpa [List.isEmpty_iff] using hpre)]

/-- The day-trim step preserves canonical form. -/
theorem dayTrim_canon {z : List Char} (hz : CanonB z) : CanonB (dayTrim z) := by
  by_cases hpost : (pySplitLines z).dropWhile (fun l => !isDayLine l) = []
  · rw [dayTrim_of_post_nil hpost]
    exact hz
  by_cases hpre : (pySplitLines z).takeWhile (fun l => !isDayLine l) = []
  · rw [dayTrim_of_pre_nil hpost hpre]
    exact hz
  rw [dayTrim_of_main hpost hpre]
  have hprespec : ∀ l ∈ (pySplitLines z).takeWhile (fun l => !isDayLine l),
      keepOrNorm l = some l ∧ breakFree l = true :=
    fun l hl => hz.1 l ((List.takeWhile_prefix _).subset hl)
  have hpostspec : ∀ l ∈ (pySplitLines z).dropWhile (fun l => !isDayLine l),
      keepOrNorm l = some l ∧ breakFree l = true :=
    fun l hl => hz.1 l ((List.dropWhile_suffix _).subset hl)
  have hbody := strip_join_canon hpostspec
  have hhead := strip_join_canon hprespec
  have hblines : pySplitLines (pyStrip (joinNl ((pySplitLines z).dropWhile
      (fun l => !isDayLine l)))) = edgeTrimL ((pySplitLines z).dropWhile
      (fun l => !isDayLine l)) :=
    pySplitLines_strip_join (fun l hl => (hpostspec l hl).2)
  set HL := pySplitLines (pyStrip (joinNl ((pySplitLines z).takeWhile
    (fun l => !isDayLine l)))) with hHLdef
  set T := HL.drop (HL.length - 2) with hTdef
  set body := pyStrip (joinNl ((pySplitLines z).dropWhile
    (fun l => !isDayLine l))) with hbodydef
  split
  · exact hbody
  · rename_i htne
    have hTne : T ≠ [] := by
      intro hn
      rw [hn] at htne
      exact htne rfl
    cases hpd : (pySplitLines z).dropWhile (fun l => !isDayLine l) with
    | nil => exact absurd hpd hpost
    | cons d rest =>
      have hd : isDayLine d = true := by
        have h0 := dropWhile_head_false hpd
        simpa using h0
      obtain ⟨m0, B2, hB2, hm0⟩ := edgeTrim_day_cons rest hd
      have hBlines : pySplitLines body = m0 :: B2 := by
        rw [hblines, hpd, hB2]
      have hglue : joinNl T ++ '\n' :: '\n' :: body
          = joinNl (T ++ [] :: pySplitLines body) :=
        title_glue hTne (by rw [hBlines]; simp) hbody.2.1
      rw [hglue]
      refine strip_join_canon ?_
      intro l hl
      rw [List.mem_append] at hl
      rcases hl with hl | hl
      · exact hhead.1 l (List.drop_subset _ _ hl)
      · rcases List.mem_cons.mp hl with rfl | hl2
        · exact ⟨rfl, rfl⟩
        · exact hbody.1 l hl2

theorem stripL_decomp (l : List Char) :
    ∃ w, l = w ++ stripL l ∧ w.all isPyWs = true := by
  refine ⟨l.takeWhile isPyWs, (List.takeWhile_append_dropWhile isPyWs l).symm, ?_⟩
  rw [List.all_eq_true]
  exact fun x hx => List.mem_takeWhile_imp hx

theorem pyStrip_stripL_append (a X : List Char) :
    pyStrip (stripL a ++ X) = pyStrip (a ++ X) := by
  obtain ⟨w, hw1, hw2⟩ := stripL_decomp a
  conv_rhs => rw [hw1]
  rw [List.append_assoc, pyStrip_ws_append hw2]

theorem stripR_stripL_of_fixed {b : List Char} (h : stripR b = b) :
    stripR (stripL b) = stripL b := by
  have h1 : stripL b.reverse = b.reverse := by
    rw [stripL_reverse, h]
  have h2 := stripL_stripR h1
  have h3 : stripR b.reverse = (stripL b).reverse := by
    rw [stripR, List.reverse_reverse]
    rfl
  rw [h3, stripL_reverse] at h2
  have h4 := congrArg List.reverse h2
  simpa using h4

theorem stripR_append_fixed {u b : List Char} (h : stripR b = b)
    (hb : b ≠ []) : stripR (u ++ b) = u ++ b := by
  have h1 : b.reverse.dropWhile isPyWs = b.reverse := by
    have := congrArg List.reverse h
    rw [stripR, List.reverse_reverse] at this
    exact this
  rw [stripR, List.reverse_append, dropWhile_append_ne
    (by rw [h1]; simpa using hb), h1, List.reverse_append,
    List.reverse_reverse, List.reverse_reverse]

theorem updateHead_getLast?_cases {f : List Char → List Char}
    {X : List (List Char)} {y : List Char}
    (h : (updateHeadL f X).getLast? = some y) :
    ∃ x, X.getLast? = some x ∧ (y = x ∨ y = f x) := by
  cases X with
  | nil => cases h
  | cons x t =>
    cases t with
    | nil =>
      rw [show updateHeadL f [x] = [f x] from rfl] at h
      injection h with h2
      exact ⟨x, rfl, Or.inr h2.symm⟩
    | cons x2 t2 =>
      rw [show updateHeadL f (x :: x2 :: t2) = f x :: x2 :: t2 from rfl,
        List.getLast?_cons_cons] at h
      exact ⟨(x2 :: t2).getLast (by simp), by
        rw [List.getLast?_cons_cons, List.getLast?_eq_getLast], by
        rw [List.getLast?_eq_getLast] at h
        injection h with h2
        exact Or.inl h2.symm⟩

theorem updateHeadL_length (f : List Char → List Char)
    (X : List (List Char)) : (updateHeadL f X).length = X.length := by
  cases X <;> rfl

theorem updateLastL_length (f : List Char → List Char)
    (X : List (List Char)) : (updateLastL f X).length = X.length := by
  rw [updateLastL, List.length_reverse, updateHeadL_length, List.length_reverse]

theorem edgeTrim_length_le (X : List (List Char)) :
    (edgeTrimL X).length ≤ X.length := by
  rw [edgeTrimL, updateLastL_length]
  calc (dropTrailBlanksL (updateHeadL stripL (X.dropWhile isBlankL))).length
      ≤ (updateHeadL stripL (X.dropWhile isBlankL)).length :=
        (prefix_dropTrailBlanksL _).length_le
    _ = (X.dropWhile isBlankL).length := updateHeadL_length _ _
    _ ≤ X.length := (List.dropWhile_suffix _).length_le

/-- The day-trim step is idempotent on canonical text. -/
theorem dayTrim_idem {z : List Char} (hz : CanonB z) :
    dayTrim (dayTrim z) = dayTrim z := by
  by_cases hpost : (pySplitLines z).dropWhile (fun l => !isDayLine l) = []
  · rw [dayTrim_of_post_nil hpost, dayTrim_of_post_nil hpost]
  by_cases hpre : (pySplitLines z).takeWhile (fun l => !isDayLine l) = []
  · rw [dayTrim_of_pre_nil hpost hpre, dayTrim_of_pre_nil hpost hpre]
  rw [dayTrim_of_main hpost hpre]
  have hprespec : ∀ l ∈ (pySplitLines z).takeWhile (fun l => !isDayLine l),
      keepOrNorm l = some l ∧ breakFree l = true :=
    fun l hl => hz.1 l ((List.takeWhile_prefix _).subset hl)
  have hpostspec : ∀ l ∈ (pySplitLines z).dropWhile (fun l => !isDayLine l),
      keepOrNorm l = some l ∧ breakFree l = true :=
    fun l hl => hz.1 l ((List.dropWhile_suffix _).subset hl)
  have hprenoday : ∀ l ∈ (pySplitLines z).takeWhile (fun l => !isDayLine l),
      isDayLine l = false := by
    intro l hl
    have h0 := List.mem_takeWhile_imp hl
    simpa using h0
  have hbody := strip_join_canon hpostspec
  have hhead := strip_join_canon hprespec
  have hblines : pySplitLines (pyStrip (joinNl ((pySplitLines z).dropWhile
      (fun l => !isDayLine l)))) = edgeTrimL ((pySplitLines z).dropWhile
      (fun l => !isDayLine l)) :=
    pySplitLines_strip_join (fun l hl => (hpostspec l hl).2)
  have hheadlines : pySplitLines (pyStrip (joinNl ((pySplitLines z).takeWhile
      (fun l => !isDayLine l)))) = edgeTrimL ((pySplitLines z).takeWhile
      (fun l => !isDayLine l)) :=
    pySplitLines_strip_join (fun l hl => (hprespec l hl).2)
  set HL := pySplitLines (pyStrip (joinNl ((pySplitLines z).takeWhile
    (fun l => !isDayLine l)))) with hHLdef
  set T := HL.drop (HL.length - 2) with hTdef
  set body := pyStrip (joinNl ((pySplitLines z).dropWhile
    (fun l => !isDayLine l))) with hbodydef
  cases hpd : (pySplitLines z).dropWhile (fun l => !isDayLine l) with
  | nil => exact absurd hpd hpost
  | cons d rest =>
  have hd : isDayLine d = true := by
    have h0 := dropWhile_head_false hpd
    simpa using h0
  obtain ⟨m0, B2, hB2, hm0⟩ := edgeTrim_day_cons rest hd
  have hBlines : pySplitLines body = m0 :: B2 := by
    rw [hblines, hpd, hB2]
  split
  · refine dayTrim_of_pre_nil ?_ ?_
    · rw [hBlines, List.dropWhile_cons_of_neg (by simp [hm0])]
      simp
    · rw [hBlines, List.takeWhile_cons_of_neg (by simp [hm0])]
  · rename_i htne
    have hTne : T ≠ [] := by
      intro hn
      rw [hn] at htne
      exact htne rfl
    have hHLne : HL ≠ [] := by
      intro hn
      apply hTne
      rw [hTdef, hn]
      rfl
    obtain ⟨b, hbHL⟩ : ∃ b, HL.getLast? = some b := by
      cases hr : HL.reverse with
      | nil =>
        exfalso
        apply hHLne
        have h0 := congrArg List.reverse hr
        simpa using h0
      | cons x t =>
        refine ⟨x, ?_⟩
        rw [← List.head?_reverse, hr]
        rfl
    have hTlast : T.getLast? = some b := by
      rw [hTdef, ← getLast?_of_suffix (List.drop_suffix _ _)
        (by rw [← hTdef]; exact hTne)]
      exact hbHL
    have hbmem : b ∈ T := mem_of_getLast? hTlast
    have hbHL2 : (edgeTrimL ((pySplitLines z).takeWhile
        (fun l => !isDayLine l))).getLast? = some b := by
      rw [← hheadlines]
      exact hbHL
    have hbfix : stripR b = b := edgeTrim_last_fixed hbHL2
    have hbnb : isBlankL b = false := edgeTrim_last_nonblank hbHL2
    obtain ⟨bl, hbl⟩ : ∃ bl, (pySplitLines body).getLast? = some bl := by
      rw [hBlines]
      exact ⟨(m0 :: B2).getLast (by simp), List.getLast?_eq_getLast _ _⟩
    have hbl2 : (edgeTrimL ((pySplitLines z).dropWhile
        (fun l => !isDayLine l))).getLast? = some bl := by
      rw [← hblines]
      exact hbl
    have hblfix : stripR bl = bl := edgeTrim_last_fixed hbl2
    have hblnb : isBlankL bl = false := edgeTrim_last_nonblank hbl2
    have hBlne : pySplitLines body ≠ [] := by
      rw [hBlines]
      simp
    have hglue : joinNl T ++ '\n' :: '\n' :: body
        = joinNl (T ++ [] :: pySplitLines body) :=
      title_glue hTne hBlne hbody.2.1
    rw [hglue]
    have hLbf : ∀ l ∈ T ++ [] :: pySplitLines body, breakFree l = true := by
      intro l hl
      rw [List.mem_append] at hl
      rcases hl with hl | hl
      · exact (hhead.1 l (List.drop_subset _ _ hl)).2
      · rcases List.mem_cons.mp hl with rfl | hl2
        · rfl
        · exact (hbody.1 l hl2).2
    have hLlast : ([] :: pySplitLines body).getLast? = some bl := by
      rw [show ([] :: pySplitLines body) = [[]] ++ pySplitLines body from rfl,
        getLast?_append_right hBlne]
      exact hbl
    have hM : pySplitLines (pyStrip (joinNl (T ++ [] :: pySplitLines body)))
        = updateHeadL stripL (T.dropWhile isBlankL)
          ++ [] :: pySplitLines body := by
      rw [pySplitLines_strip_join hLbf]
      exact edgeTrim_append hLlast hblnb hblfix hbmem hbnb
    set A2 := updateHeadL stripL (T.dropWhile isBlankL) with hA2def
    set r := pyStrip (joinNl (T ++ [] :: pySplitLines body)) with hrdef
    have hDne : T.dropWhile isBlankL ≠ [] := by
      intro hn
      rw [List.dropWhile_eq_nil_iff] at hn
      rw [hn b hbmem] at hbnb
      cases hbnb
    have hA2ne : A2 ≠ [] := by
      rw [hA2def]
      cases hD : T.dropWhile isBlankL with
      | nil => exact absurd hD hDne
      | cons t1 tr => simp [updateHeadL]
    have hHLnoday : ∀ l ∈ HL, isDayLine l = false := by
      intro l hl
      rw [hheadlines] at hl
      obtain ⟨l0, hl0, hc⟩ := mem_edgeTrimL hl
      rcases hc with rfl | rfl | rfl | rfl
      · exact hprenoday l hl0
      · rw [isDayLine_stripL]
        exact hprenoday l0 hl0
      · rw [isDayLine_stripR]
        exact hprenoday l0 hl0
      · rw [isDayLine_stripR, isDayLine_stripL]
        exact hprenoday l0 hl0
    have hA2noday : ∀ l ∈ A2, isDayLine l = false := by
      intro l hl
      rw [hA2def] at hl
      rcases mem_updateHeadL hl with hl2 | ⟨l0, hl0, rfl⟩
      · exact hHLnoday l (List.drop_subset _ _
          ((List.dropWhile_suffix _).subset hl2))
      · rw [isDayLine_stripL]
        exact hHLnoday l0 (List.drop_subset _ _
          ((List.dropWhile_suffix _).subset hl0))
    have hA2keep : ∀ l ∈ A2, keepOrNorm l = some l ∧ breakFree l = true := by
      intro l hl
      rw [hA2def] at hl
      rcases mem_updateHeadL hl with hl2 | ⟨l0, hl0, rfl⟩
      · exact hhead.1 l (List.drop_subset _ _
          ((List.dropWhile_suffix _).subset hl2))
      · have h1 := hhead.1 l0 (List.drop_subset _ _
          ((List.dropWhile_suffix _).subset hl0))
        exact ⟨keepOrNorm_stripL h1.1,
          breakFree_infix (List.dropWhile_suffix isPyWs).isInfix h1.2⟩
    have hDlast : (T.dropWhile isBlankL).getLast? = some b := by
      rw [← getLast?_of_suffix (List.dropWhile_suffix _) hDne]
      exact hTlast
    obtain ⟨b2, hb2⟩ : ∃ x, A2.getLast? = some x := by
      cases hA : A2 with
      | nil => exact absurd hA hA2ne
      | cons a1 t1 =>
        exact ⟨(a1 :: t1).getLast (by simp), List.getLast?_eq_getLast _ _⟩
    have hb2' : (updateHeadL stripL (T.dropWhile isBlankL)).getLast?
        = some b2 := by
      rw [← hA2def]
      exact hb2
    obtain ⟨x, hxD, hx⟩ := updateHead_getLast?_cases hb2'
    have hxb : x = b := by
      rw [hDlast] at hxD
      injection hxD with h2
      exact h2.symm
    subst hxb
    have hb2fix : stripR b2 = b2 := by
      rcases hx with rfl | rfl
      · exact hbfix
      · exact stripR_stripL_of_fixed hbfix
    have hb2nb : isBlankL b2 = false := by
      rcases hx with rfl | rfl
      · exact hbnb
      · rw [isBlankL_stripL]
        exact hbnb
    obtain ⟨t1, tr, hD⟩ : ∃ t1 tr, T.dropWhile isBlankL = t1 :: tr := by
      cases hD0 : T.dropWhile isBlankL with
      | nil => exact absurd hD0 hDne
      | cons t1 tr => exact ⟨t1, tr, rfl⟩
    have ht1nb : isBlankL t1 = false := dropWhile_head_false hD
    have hA2cons : A2 = stripL t1 :: tr := by
      rw [hA2def, hD]
      rfl
    have hjnb : isBlankL (joinNl A2) = false := by
      rw [hA2cons]
      cases tr with
      | nil =>
        rw [show joinNl [stripL t1] = stripL t1 from rfl, isBlankL_stripL]
        exact ht1nb
      | cons u us =>
        rw [joinNl_cons (by simp)]
        by_contra hc
        rw [Bool.not_eq_false, isBlankL, List.all_append, Bool.and_eq_true] at hc
        have h1 := hc.1
        rw [show (stripL t1).all isPyWs = isBlankL (stripL t1) from rfl,
          isBlankL_stripL, ht1nb] at h1
        cases h1
    have hstripRJ : stripR (joinNl A2) = joinNl A2 := by
      rw [stripR_joinNl, dropTrail_id_of_last hb2 hb2nb,
        updateLast_id_of_fixed hb2 hb2fix]
    have hpyJ : pyStrip (joinNl A2) = stripL (joinNl A2) := by
      rw [pyStrip, stripR_stripL_of_fixed hstripRJ]
    have hrtake : (pySplitLines r).takeWhile (fun l => !isDayLine l)
        = A2 ++ [[]] := by
      rw [hM, takeWhile_append_of (fun a ha => by simp [hA2noday a ha]),
        List.takeWhile_cons_of_pos (by simp [isDayLine_nil]), hBlines,
        List.takeWhile_cons_of_neg (by simp [hm0])]
    have hrdrop : (pySplitLines r).dropWhile (fun l => !isDayLine l)
        = pySplitLines body := by
      rw [hM, dropWhile_append_of (fun a ha => by simp [hA2noday a ha]),
        List.dropWhile_cons_of_pos (by simp [isDayLine_nil]), hBlines,
        List.dropWhile_cons_of_neg (by simp [hm0])]
    rw [dayTrim_of_main (by rw [hrdrop, hBlines]; simp) (by rw [hrtake]; simp)]
    rw [hrtake, hrdrop, hbody.2.1, hbody.2.2]
    have hjA2 : joinNl (A2 ++ [[]]) = joinNl A2 ++ ['\n'] := by
      rw [joinNl_append hA2ne (by simp)]
      rfl
    rw [hjA2, pyStrip_append_ws
      (show (['\n'] : List Char).all isPyWs = true from by decide)]
    have hcanonH2 := strip_join_canon hA2keep
    have hH2lines : pySplitLines (pyStrip (joinNl A2)) = edgeTrimL A2 :=
      pySplitLines_strip_join (fun l hl => (hA2keep l hl).2)
    have hH2len : (pySplitLines (pyStrip (joinNl A2))).length ≤ 2 := by
      rw [hH2lines]
      calc (edgeTrimL A2).length ≤ A2.length := edgeTrim_length_le A2
        _ = (T.dropWhile isBlankL).length := by rw [hA2def, updateHeadL_length]
        _ ≤ T.length := (List.dropWhile_suffix _).length_le
        _ ≤ 2 := by
          rw [hTdef, List.length_drop]
          omega
    have hdrop0 : (pySplitLines (pyStrip (joinNl A2))).length - 2 = 0 := by
      omega
    rw [hdrop0, List.drop_zero, hcanonH2.2.1]
    rw [if_neg (by
      rw [hpyJ]
      simp only [List.isEmpty_iff]
      intro hc
      rw [stripL_eq_nil_iff] at hc
      rw [hc] at hjnb
      cases hjnb)]
    rw [hpyJ, pyStrip_stripL_append, hrdef, ← hglue,
      show pyStrip (joinNl T ++ '\n' :: '\n' :: body)
        = pyStrip (stripL (joinNl T) ++ '\n' :: '\n' :: body) from
        (pyStrip_stripL_append _ _).symm,
      stripL_joinNl, ← hA2def]

/-!  ## The sanitizer on pattern-free input -/

theorem Der.glue {z A B : List Char} (hA : Der z A) (hB : Der z B) :
    Der z (pyStrip (A ++ '\n' :: '\n' :: B)) := by
  refine Der.ofStrip ?_
  rw [show A ++ '\n' :: '\n' :: B = joinNl [A, [], B] from rfl]
  refine Der.join ?_
  intro l hl
  simp only [List.mem_cons, List.not_mem_nil, or_false] at hl
  rcases hl with rfl | rfl | rfl
  · exact hA
  · exact Der.nil z
  · exact hB

theorem der_cleanedOf (t : List Char) : Der t (cleanedOf t) := by
  rw [cleanedOf]
  refine Der.ofStrip (Der.join ?_)
  intro l hl
  rw [filteredLines, List.mem_filterMap] at hl
  obtain ⟨ln, hln, hk⟩ := hl
  rcases keepOrNorm_some_cases hk with rfl | rfl
  · exact Der.nil t
  · exact (Der.self t).ofLine hln

theorem der_dayTrim (z : List Char) : Der z (dayTrim z) := by
  by_cases hpost : (pySplitLines z).dropWhile (fun l => !isDayLine l) = []
  · rw [dayTrim_of_post_nil hpost]
    exact Der.self z
  by_cases hpre : (pySplitLines z).takeWhile (fun l => !isDayLine l) = []
  · rw [dayTrim_of_pre_nil hpost hpre]
    exact Der.self z
  rw [dayTrim_of_main hpost hpre]
  have hpostD : Der z (pyStrip (joinNl ((pySplitLines z).dropWhile
      (fun l => !isDayLine l)))) := by
    refine Der.ofStrip (Der.join ?_)
    intro l hl
    exact (Der.self z).ofLine ((List.dropWhile_suffix _).subset hl)
  have hheadD : Der z (pyStrip (joinNl ((pySplitLines z).takeWhile
      (fun l => !isDayLine l)))) := by
    refine Der.ofStrip (Der.join ?_)
    intro l hl
    exact (Der.self z).ofLine ((List.takeWhile_prefix _).subset hl)
  split
  · exact hpostD
  · refine Der.glue ?_ hpostD
    refine Der.join ?_
    intro l hl
    exact hheadD.ofLine (List.drop_subset _ _ hl)

/-- On input free of the three removable patterns, the regex passes are the
identity and the sanitizer reduces to line filtering plus day-trimming. -/
theorem sanitize_step_eq {x : List Char}
    (hf : containsSub "```".data x = false)
    (ht : containsSubCI "toolexception".data x = false)
    (hd : containsSub "\"data\"".data x = false) :
    sanitizeL x = if x.isEmpty then [] else dayTrim (cleanedOf x) := by
  rw [sanitizeL, fenceRm_id hf, teRm_id ht, djRm_id hd]

/-- Idempotence of the sanitizer on inputs free of the code-fence,
ToolException and `"data"`-JSON patterns. -/
theorem sanitize_idem_core {x : List Char}
    (hf : containsSub "```".data x = false)
    (ht : containsSubCI "toolexception".data x = false)
    (hd : containsSub "\"data\"".data x = false) :
    sanitizeL (sanitizeL x) = sanitizeL x := by
  by_cases hx : x = []
  · subst hx
    rfl
  rw [sanitize_step_eq hf ht hd, if_neg (by simpa using hx)]
  set y := dayTrim (cleanedOf x) with hydef
  have hDer : Der x y := Der.trans (der_cleanedOf x) (der_dayTrim (cleanedOf x))
  have hyf : containsSub "```".data y = false :=
    Der.noSub (by decide) (by decide) hDer hf
  have hyt : containsSubCI "toolexception".data y = false :=
    Der.noSubCI (by decide) (by decide) hDer ht
  have hyd : containsSub "\"data\"".data y = false :=
    Der.noSub (by decide) (by decide) hDer hd
  have hcanon : CanonB (cleanedOf x) := canon_cleanedOf x
  have hycanon : CanonB y := by
    rw [hydef]
    exact dayTrim_canon hcanon
  by_cases hy : y = []
  · rw [hy]
    rfl
  rw [sanitize_step_eq hyf hyt hyd, if_neg (by simpa using hy),
    canon_cleaned_fix hycanon, hydef]
  exact dayTrim_idem hcanon

/-- C4: the claim asserts that `sanitize_learning_path_text` is idempotent on
every input already satisfying its output invariant (no trace lines, no code
fences, no bare JSON lines, at most two title lines before the first day
header).  This input satisfies the invariant, yet removing the ToolException
span splices together a fresh `Error: ToolException(...)` span out of the
surrounding fragments, which the second run then removes: the two runs give
`"Error: ToolException(c)"` and then `""`. -/
theorem claim_C4_counterexample :
    claimInvariant "Error: ToolError: ToolException(q) Exception(c)".data
      = true ∧
    sanitize_learning_path_text
        "Error: ToolError: ToolException(q) Exception(c)"
      = "Error: ToolException(c)" ∧
    sanitize_learning_path_text (sanitize_learning_path_text
        "Error: ToolError: ToolException(q) Exception(c)")
      ≠ sanitize_learning_path_text
        "Error: ToolError: ToolException(q) Exception(c)" := by
  refine ⟨by decide, by decide, ?_⟩
  decide

/-- C4 (amended): on every input satisfying the output invariant strengthened
by the absence of the ToolException marker and of the quoted `"data"` key —
the two sub-patterns whose removal can splice new removable spans out of
fragments — `sanitize_learning_path_text` is idempotent. -/
theorem claim_C4_amended_idempotent (s : String)
    (h : sanitizeInvariant s.data = true) :
    sanitize_learning_path_text (sanitize_learning_path_text s)
      = sanitize_learning_path_text s := by
  rw [sanitizeInvariant, Bool.and_eq_true, Bool.and_eq_true] at h
  obtain ⟨⟨hci, htl⟩, hdl⟩ := h
  rw [claimInvariant, Bool.and_eq_true, Bool.and_eq_true] at hci
  have hf : containsSub "```".data s.data = false := by
    have h0 := hci.1.2
    simpa using h0
  have ht : containsSubCI "toolexception".data s.data = false := by
    simpa using htl
  have hd : containsSub "\"data\"".data s.data = false := by
    simpa using hdl
  exact congrArg String.mk (sanitize_idem_core hf ht hd)

/-- Witness for the amended C4 at a concrete invariant-satisfying input. -/
theorem claim_C4_amended_witness :
    sanitizeInvariant "Day 1: Intro\nTopic: X".data = true ∧
    sanitize_learning_path_text (sanitize_learning_path_text
        "Day 1: Intro\nTopic: X")
      = sanitize_learning_path_text "Day 1: Intro\nTopic: X" :=
  ⟨by decide, claim_C4_amended_idempotent _ (by decide)⟩

end LPG
